import Mathlib

/-!
Verification development for the `matroids` library: matroid implementations
(graphical, linear, uniform, explicit), the static greedy algorithm for
maximum-weight independent sets (MWIS), and the dynamic algorithms
(`RestartGreedy`, `NaiveDynamic`, and the partial uniform-weight algorithms).

Python floats that appear as weights are modelled by rationals (ℚ); all
weight values exercised here are small integers, where float arithmetic is
exact.  Python `dict`s are modelled by association lists, Python `set`s by
`Finset`, and the `llist` doubly-linked lists by Lean lists together with
explicit index bookkeeping that mirrors node/`.next` navigation.
-/

namespace Matroids

/-- Error raised by a failed operation: `KeyError`/`NetworkXError` for removing
an absent element, `AttributeError` for the `None.next` dereference that
`NaiveDynamic.remove_element` would hit if the element were in the solution
but missing from the ordered list. -/
inductive MutationError where
  | keyError
  | attributeError
  | stopIteration
  deriving DecidableEq, Repr

/-- A Python numeric object stored as an edge attribute: either a `float`
(modelled by ℚ) or an `int`.  `isinstance(w, float)` distinguishes the two. -/
inductive PyNum where
  | pyFloat (x : ℚ)
  | pyInt (n : ℤ)
  deriving DecidableEq, Repr

/-- Embedding of `GraphicalMatroid.get_weight` (graphical.py lines 75-78): the
edge's attribute dictionary either has a `"weight"` entry (`some a`) or not
(`none`); `.get("weight", 1.0)` supplies the float `1.0` default, and
`assert isinstance(weight, float)` fails (modelled by `none`) whenever the
stored value is not a Python float. -/
def graphicalGetWeight (attr : Option PyNum) : Option ℚ :=
  match attr.getD (PyNum.pyFloat 1) with
  | .pyFloat x => some x
  | .pyInt _ => none

/-! ### MutableIntUniformMatroid (uniform.py)

State of a `MutableIntUniformMatroid`: `size` and `rank` as constructed,
the `weights` dict, and the mutable `_elements` ground set. -/

structure MutableIntUniformMatroid where
  size : ℕ
  rank : ℕ
  weights : List (ℤ × ℚ)
  elements : Finset ℤ
  deriving DecidableEq

namespace MutableIntUniformMatroid

/-- Constructor + `__post_init__`: `_elements = set(range(size))`. -/
def mk' (size rank : ℕ) (weights : List (ℤ × ℚ)) : MutableIntUniformMatroid :=
  { size := size, rank := rank, weights := weights,
    elements := (Finset.range size).image Int.ofNat }

/-- `ground_set` property of the mutable class returns `_elements`. -/
def ground_set (m : MutableIntUniformMatroid) : Finset ℤ := m.elements

/-- `get_weight`: `self.weights.get(element, 1.0)`. -/
def get_weight (m : MutableIntUniformMatroid) (e : ℤ) : ℚ :=
  (m.weights.lookup e).getD 1

/-- `is_independent(subset)`: `len(subset) <= self.rank`. -/
def is_independent (m : MutableIntUniformMatroid) (s : Finset ℤ) : Bool :=
  s.card ≤ m.rank

/-- Embedding of `MutableIntUniformMatroid.add_element` (uniform.py lines
60-61).  The method signature is `add_element(self, element)`: it takes no
weight argument and touches only `_elements`; the `weights` dict is never
updated. -/
def add_element (m : MutableIntUniformMatroid) (e : ℤ) : MutableIntUniformMatroid :=
  { m with elements := insert e m.elements }

/-- Embedding of `MutableIntUniformMatroid.remove_element` (uniform.py lines
63-64): `self._elements.remove(element)` raises `KeyError` when the element
is absent, before any state is touched. -/
def remove_element (m : MutableIntUniformMatroid) (e : ℤ) :
    Except MutationError MutableIntUniformMatroid :=
  if e ∈ m.elements then
    .ok { m with elements := m.elements.erase e }
  else
    .error .keyError

end MutableIntUniformMatroid

/-! ### GraphicalMatroid mutation surface (graphical.py)

For the mutation-level claims we model the `networkx` graph as its edge
list: each edge (an unordered pair, kept here in a fixed normalised
orientation) together with its optional `"weight"` attribute. -/

structure GraphState where
  edges : List ((ℕ × ℕ) × Option PyNum)
  deriving DecidableEq, Repr

namespace GraphState

/-- Membership of an edge in the graph. -/
def hasEdge (g : GraphState) (e : ℕ × ℕ) : Bool :=
  (g.edges.lookup e).isSome

/-- Embedding of `GraphicalMatroid.add_element` (graphical.py lines 80-81):
`self.graph.add_edge(*element)`.  The method signature has no weight
parameter and sets no `"weight"` attribute; re-adding an existing edge
keeps its attributes (networkx semantics). -/
def add_element (g : GraphState) (e : ℕ × ℕ) : GraphState :=
  if g.hasEdge e then g else { edges := g.edges ++ [(e, none)] }

/-- Embedding of `GraphicalMatroid.get_weight` at the graph level: look up the
edge's attribute dict and take the `"weight"` entry through
`graphicalGetWeight`; only defined (in Python: only called without a
`KeyError`-like failure inside `get_edge_data`) when the edge exists. -/
def get_weight (g : GraphState) (e : ℕ × ℕ) : Option ℚ :=
  graphicalGetWeight ((g.edges.lookup e).getD none)

/-- Embedding of `GraphicalMatroid.remove_element` (graphical.py lines 83-84):
`self.graph.remove_edge(*element)` raises `NetworkXError` when the edge is
absent, before any state is touched. -/
def remove_element (g : GraphState) (e : ℕ × ℕ) :
    Except MutationError GraphState :=
  if g.hasEdge e then
    .ok { edges := g.edges.filter (fun p => p.1 ≠ e) }
  else
    .error .keyError

end GraphState

/-! ### Abstract mutable matroid (base.py)

The dynamic solvers interact with a `MutableMatroid` only through
`ground_set`, `get_weight`, `add_element`, `remove_element`, and the
independence oracle.  We model that contract by a ground `Finset`, a weight
dict, and a fixed independence predicate `indep` on finite subsets (removal
restricts the family by restricting the ground set, matching each concrete
mutable matroid). -/

structure MMatroid (α : Type) where
  ground : Finset α
  weights : List (α × ℚ)
  deriving DecidableEq

variable {α : Type} [DecidableEq α]

namespace MMatroid

/-- `get_weight` with the documented default of `1.0`. -/
def get_weight (m : MMatroid α) (x : α) : ℚ :=
  (m.weights.lookup x).getD 1

/-- `MutableMatroid.add_element(element, weight)` as documented in base.py:
the element joins the ground set with weight `weight` (default `1.0`). -/
def add_element (m : MMatroid α) (x : α) (w : Option ℚ) : MMatroid α :=
  { ground := insert x m.ground, weights := (x, w.getD 1) :: m.weights }

/-- `MutableMatroid.remove_element(element)`: removes the element from the
ground set, raising (`KeyError`/`NetworkXError`) when it is absent. -/
def remove_element (m : MMatroid α) (x : α) : Except MutationError (MMatroid α) :=
  if x ∈ m.ground then .ok { m with ground := m.ground.erase x }
  else .error .keyError

/-- Total version of removal for use on the success path. -/
def remove_total (m : MMatroid α) (x : α) : MMatroid α :=
  { m with ground := m.ground.erase x }

/-- `Matroid.total_weight(subset)`: sum of the weights. -/
def total_weight (m : MMatroid α) (s : Finset α) : ℚ :=
  s.sum m.get_weight

end MMatroid

/-! ### The default stateful independence checker (base.py lines 84-141)

`would_be_independent_after_adding(e)` falls back on
`is_independent(S | {e})`, and `add_element` just inserts into the tracked
subset (unchecked).  `indep` is the matroid's bulk independence test. -/

/-- Default `StatefulIndependenceChecker.would_be_independent_after_adding`. -/
def would_be_independent_after_adding (indep : Finset α → Bool) (S : Finset α) (x : α) : Bool :=
  indep (insert x S)

/-- `StatefulIndependenceChecker.add_if_independent`: test, then insert on
success; returns the updated subset and whether the element was added. -/
def add_if_independent (indep : Finset α → Bool) (S : Finset α) (x : α) : Finset α × Bool :=
  if would_be_independent_after_adding indep S x then (insert x S, true) else (S, false)

/-! ### Static greedy algorithm (static.py) -/

/-- Descending-by-weight order used by `sorted(..., key=get_weight, reverse=True)`. -/
def wge (w : α → ℚ) : α → α → Prop := fun a b => w b ≤ w a

instance {w : α → ℚ} : DecidableRel (wge w) := fun a b => inferInstanceAs (Decidable (w b ≤ w a))

instance {w : α → ℚ} : IsTotal α (wge w) := ⟨fun a b => le_total (w b) (w a)⟩

instance {w : α → ℚ} : IsTrans α (wge w) := ⟨fun _ _ _ h h' => le_trans h' h⟩

/-- `sorted(elements, key=matroid.get_weight, reverse=True)`. -/
def sortDescWeight (w : α → ℚ) (l : List α) : List α :=
  l.insertionSort (wge w)

/-- Embedding of `_greedy_core` (static.py lines 38-58): keep adding the next
element when that maintains independence, through the stateful checker. -/
def greedyCore (indep : Finset α → Bool) : Finset α → List α → Finset α
  | S, [] => S
  | S, x :: xs => greedyCore indep (add_if_independent indep S x).1 xs

/-- Embedding of `maximal_independent_set` (static.py lines 8-20): discard
elements of negative weight, sort by descending weight, run the greedy core
from the empty set.  `order` is the (unspecified) iteration order of the
matroid's ground set. -/
def maximal_independent_set (indep : Finset α → Bool) (w : α → ℚ) (order : List α) : Finset α :=
  greedyCore indep ∅ (sortDescWeight w (order.filter (fun x => 0 ≤ w x)))

/-! ### RestartGreedy (full.py lines 72-93) -/

structure RGState (α : Type) where
  matroid : MMatroid α
  current : Finset α
  deriving DecidableEq

namespace RestartGreedy

/-- `RestartGreedy.remove_element`: mutate the matroid, then rerun the static
greedy.  `ordOf` supplies the iteration order of the mutated ground set.  A
failed matroid removal propagates before `self._current` is reassigned. -/
def remove_element (indep : Finset α → Bool) (ordOf : MMatroid α → List α)
    (st : RGState α) (e : α) : Except MutationError (RGState α) :=
  match st.matroid.remove_element e with
  | .error er => .error er
  | .ok m' => .ok { matroid := m',
                    current := maximal_independent_set indep m'.get_weight (ordOf m') }

end RestartGreedy

/-! ### NaiveDynamic (full.py lines 96-232)

State: the matroid, the `LinkedListSet` of non-negative-weight elements in
descending weight order, the parallel `llist.dllist` of indicators, and the
current solution.  List nodes are modelled by indices; `zip` over the two
lists pairs equal indices and stops at the shorter list, exactly as the
Python `zip` over the two node iterators does. -/

structure NDState (α : Type) where
  matroid : MMatroid α
  elements : List α
  indicators : List Bool
  current : Finset α
  deriving DecidableEq

namespace NaiveDynamic

/-- The zip walk of `_reconstruct_greedy` (full.py lines 185-216): walk the
two lists in parallel; when `stop` first holds, return the replayed subset
and the pair's index; when either iterator is exhausted (the `for`-`else`
branch), return `none` for the position.  Indicator-`true` elements are
replayed into the checker by the unchecked `add_element`. -/
def reconstruct_zip (stop : α → Bool) :
    List α → List Bool → Finset α → ℕ → Finset α × Option ℕ
  | [], _, S, _ => (S, none)
  | _ :: _, [], S, _ => (S, none)
  | x :: xs, b :: bs, S, k =>
    if stop x then (S, some k)
    else reconstruct_zip stop xs bs (if b then insert x S else S) (k + 1)

/-- The zip walk of `_continue_greedy` (full.py lines 218-232): for each
paired element/indicator, set the indicator to the result of
`add_if_independent`.  Returns the final subset and the rewritten flags for
the consumed indicator positions. -/
def continue_zip (indep : Finset α → Bool) :
    Finset α → List α → List Bool → Finset α × List Bool
  | S, [], _ => (S, [])
  | S, _ :: _, [] => (S, [])
  | S, x :: xs, _ :: bs =>
    let p := add_if_independent indep S x
    let r := continue_zip indep p.1 xs bs
    (r.1, p.2 :: r.2)

/-- `_continue_greedy` over the whole lists, starting from the given node
positions.  A `none` element start means `iter_values(start=None)`, which
iterates the whole element list; a `none` indicator start means
`iter_nodes(None)`, which is the empty iterator (full.py line 227 /
linked_list_set.py lines 47-60 and 108-113). -/
def continue_greedy (indep : Finset α → Bool) (S : Finset α)
    (elements : List α) (indicators : List Bool)
    (estart istart : Option ℕ) : Finset α × List Bool :=
  let xs := match estart with
    | none => elements
    | some k => elements.drop k
  let j := match istart with
    | none => indicators.length
    | some k => k
  let r := continue_zip indep S xs (indicators.drop j)
  (r.1, indicators.take j ++ r.2 ++ indicators.drop (j + r.2.length))

/-- `NaiveDynamic.__init__` (full.py lines 97-114): filter the non-negative
elements of the ground set (in iteration order `order`), sort them by
descending weight, create the all-`False` indicator list, and run the
greedy pass from the first nodes of both lists. -/
def init (indep : Finset α → Bool) (m : MMatroid α) (order : List α) : NDState α :=
  let elements := sortDescWeight m.get_weight
    (order.filter (fun x => 0 ≤ m.get_weight x))
  let indicators := List.replicate elements.length false
  let r := continue_greedy indep ∅ elements indicators (some 0) (some 0)
  { matroid := m, elements := elements, indicators := r.2, current := r.1 }

/-- `NaiveDynamic.add_element` for an element not yet in the matroid
(full.py lines 136-160).  Mutate the matroid; if the actual weight is
negative, return with the lists untouched.  Otherwise reconstruct the
greedy state up to the first element of smaller weight, splice the new
element (with a `False` indicator) in at that position — at the end of each
list when the zip was exhausted — and, if the element can be added, mark it
and continue the greedy pass from the next node of each list. -/
def add_fresh (indep : Finset α → Bool) (st : NDState α) (e : α) (w : Option ℚ) :
    NDState α :=
  let m' := st.matroid.add_element e w
  let wt := m'.get_weight e
  if wt < 0 then { st with matroid := m' }
  else
    let r := reconstruct_zip (fun x => m'.get_weight x < wt) st.elements st.indicators ∅ 0
    let ke := r.2.getD st.elements.length
    let ki := r.2.getD st.indicators.length
    let elements' := st.elements.insertIdx ke e
    let indicators0 := st.indicators.insertIdx ki false
    if ¬ indep (insert e r.1) then
      { matroid := m', elements := elements', indicators := indicators0,
        current := st.current }
    else
      let indicators1 := indicators0.set ki true
      let estart := if ke + 1 < elements'.length then some (ke + 1) else none
      let istart := if ki + 1 < indicators1.length then some (ki + 1) else none
      let c := continue_greedy indep (insert e r.1) elements' indicators1 estart istart
      { matroid := m', elements := elements', indicators := c.2, current := c.1 }

/-- `NaiveDynamic.remove_element` (full.py lines 162-183).  Mutate the
matroid first (an absent element raises there, leaving everything
untouched).  If the element is not in the current solution, only
`self._elements.discard(element)` runs — the indicator list is *not*
shortened.  Otherwise reconstruct up to the element's position, unlink that
position from both lists, and continue the greedy pass from the successor
nodes (computed before unlinking, hence shifted by the removal). -/
def remove_element (indep : Finset α → Bool) (st : NDState α) (e : α) :
    Except MutationError (NDState α) :=
  match st.matroid.remove_element e with
  | .error er => .error er
  | .ok m' =>
    if e ∉ st.current then
      .ok { st with matroid := m', elements := st.elements.erase e }
    else
      let r := reconstruct_zip (fun x => x = e) st.elements st.indicators ∅ 0
      match r.2 with
      | none => .error .attributeError
      | some k =>
        let estart := if k + 1 < st.elements.length then some k else none
        let istart := if k + 1 < st.indicators.length then some k else none
        let elements' := st.elements.eraseIdx k
        let indicators' := st.indicators.eraseIdx k
        let c := continue_greedy indep r.1 elements' indicators' estart istart
        .ok { matroid := m', elements := elements', indicators := c.2, current := c.1 }

/-- `NaiveDynamic.add_element` in full generality (full.py lines 120-160):
an element already in the matroid with unchanged (or unspecified) weight is
a no-op; with a changed weight it is removed and re-added. -/
def add_element (indep : Finset α → Bool) (st : NDState α) (e : α) (w : Option ℚ) :
    Except MutationError (NDState α) :=
  if e ∈ st.matroid.ground then
    if w = none ∨ w = some (st.matroid.get_weight e) then .ok st
    else
      match remove_element indep st e with
      | .error er => .error er
      | .ok st' => .ok (add_fresh indep st' e w)
  else .ok (add_fresh indep st e w)

end NaiveDynamic

/-! ### A concrete mutable matroid for the dynamic solvers

An `ExplicitMatroid` (explicit.py) over ground set `{0..5}` whose family of
independent sets is the (downward-closed, exchange-satisfying) partition
family: at most one of `{0, 2}`, at most one of `{1, 4}`, at most two of
`{3, 5}`.  `is_independent` is literally membership of the subset in the
explicit family, and removal restricts the family by restriction of the
ground set.  Weights: 6, 5, 4, 3, 2, 1. -/

def exFamily : Finset (Finset ℕ) :=
  (({0, 1, 2, 3, 4, 5} : Finset ℕ).powerset).filter
    (fun S => (S ∩ ({0, 2} : Finset ℕ)).card ≤ 1 ∧
      (S ∩ ({1, 4} : Finset ℕ)).card ≤ 1 ∧
      (S ∩ ({3, 5} : Finset ℕ)).card ≤ 2)

/-- `ExplicitMatroid.is_independent`: `frozenset(subset) in self.independent_sets`. -/
def exIndep (S : Finset ℕ) : Bool := S ∈ exFamily

/-- The matroid state: ground set `{0..5}` with weights 6, 5, 4, 3, 2, 1. -/
def exM : MMatroid ℕ :=
  { ground := {0, 1, 2, 3, 4, 5},
    weights := [(0, 6), (1, 5), (2, 4), (3, 3), (4, 2), (5, 1)] }

/-- `NaiveDynamic(exM)`: the solver right after its constructor.  (The ground
set iteration order `[0..5]` is immaterial: the weights are distinct, so the
descending sort is unique.) -/
def exInit : NDState ℕ := NaiveDynamic.init exIndep exM [0, 1, 2, 3, 4, 5]

/-- The solver after `remove_element(2)`; element 2 is not in the current
solution `{0, 1, 3, 5}`, so the shortcut branch of `remove_element` runs. -/
def exMid : NDState ℕ :=
  ((NaiveDynamic.remove_element exIndep exInit 2).toOption).getD exInit

/-- The solver after the further `remove_element(5)`; element 5 is in the
current solution, so the reconstruct/continue branch runs over the
misaligned lists. -/
def exFinal : NDState ℕ :=
  ((NaiveDynamic.remove_element exIndep exMid 5).toOption).getD exInit

/-! ### RandomAccessMutableSet (random_access_set.py)

The ordered backing list of a `RandomAccessMutableSet`.  `discard` moves the
last element into the removed slot and pops (`self._list[index] = last;
self._list.pop()`); iteration and `random.choice` follow the list order. -/

/-- `RandomAccessMutableSet.discard(value)`: swap-with-last removal of the
first occurrence, a no-op when the value is absent. -/
def rasDiscard (l : List α) (x : α) : List α :=
  if h : x ∈ l then
    (l.set (l.indexOf x) (l.getLast (List.ne_nil_of_mem h))).dropLast
  else l

theorem rasDiscard_length_lt {l : List α} {x : α} (h : x ∈ l) :
    (rasDiscard l x).length < l.length := by
  have hne := List.ne_nil_of_mem h
  have hlen : 0 < l.length := List.length_pos.mpr hne
  simp only [rasDiscard, dif_pos h, List.length_dropLast, List.length_set]
  omega

/-! ### Uniform-weight dynamic removal algorithm (partial.py lines 44-114)

The generator `dynamic_removal_maximal_independent_set_uniform_weights`.
Python's `random.choice` reads the process-global Mersenne Twister; we model
that global state by a stream `rng : ℕ → ℕ` of draws together with a counter
`cnt` of how many draws have been consumed, `choice(seq)` taking element
`rng cnt % len(seq)` of the backing list. -/

structure URState (α : Type) where
  ground : Finset α
  pivots : List α
  witness : List (List α)
  cnt : ℕ
  finished : Bool
  deriving DecidableEq

namespace UniformRemoval

/-- The inner pivot loop (partial.py lines 80-96): while the available set is
non-empty, pick a random pivot, discard it from the (aliased, stored)
witness set, add it to the checker, filter the remainder by
`would_be_independent_after_adding`, and store the filtered set as the next
witness set.  Arguments: accumulated pivots, the stored witness sets before
the working one, the working available set, the RNG counter, and the
checker's current subset. -/
def pivotLoop (indep : Finset α → Bool) (rng : ℕ → ℕ) :
    List α → List (List α) → List α → ℕ → Finset α →
    List α × List (List α) × ℕ
  | pivots, wsPrefix, avail, cnt, S =>
    if h : avail = [] then (pivots, wsPrefix ++ [avail], cnt)
    else
      let idx : Fin avail.length :=
        ⟨rng cnt % avail.length, Nat.mod_lt _ (List.length_pos.mpr h)⟩
      let p := avail.get idx
      let avail' := rasDiscard avail p
      let S' := insert p S
      let avail'' := avail'.filter (fun x => indep (insert x S'))
      pivotLoop indep rng (pivots ++ [p]) (wsPrefix ++ [avail']) avail'' (cnt + 1) S'
  termination_by _ _ avail _ _ => avail.length
  decreasing_by
    exact lt_of_le_of_lt (List.length_filter_le _ _)
      (rasDiscard_length_lt (avail.get_mem idx idx.isLt))

/-- Initialisation (partial.py lines 60-96): `witness_sets[0]` is the
random-access set of independent singletons (in ground-set iteration order
`order`); if the matroid is empty the generator immediately yields the empty
set (modelled by `finished`), otherwise the first outer iteration runs the
pivot loop from step 0. -/
def init (indep : Finset α → Bool) (rng : ℕ → ℕ)
    (ground : Finset α) (order : List α) : URState α :=
  let ws0 := order.filter (fun x => indep {x})
  if ground = ∅ then
    { ground := ground, pivots := [], witness := [ws0], cnt := 0, finished := true }
  else
    let r := pivotLoop indep rng [] [] ws0 0 ∅
    { ground := ground, pivots := r.1, witness := r.2.1, cnt := r.2.2, finished := false }

/-- The solution the generator yields: `set(pivots)` while running, `set()`
after the matroid has become empty (partial.py lines 101 and 114). -/
def current (st : URState α) : Finset α :=
  if st.finished then ∅ else st.pivots.toFinset

/-- One `send(element_to_remove)` step of the generator (partial.py lines
99-114): the matroid removal happens first and raises on an absent element;
then the element is discarded from every witness set.  A non-pivot removal
leaves pivots (and the yielded solution) unchanged; removing the pivot of
step `k` truncates `witness_sets` to `k+1` entries and `pivots` to `k` and
reruns the pivot loop from the kept witness set, unless the matroid has
become empty, in which case the generator falls out of the outer loop and
yields the empty set.  Sending into the already-finished generator raises
`StopIteration`. -/
def remove_element (indep : Finset α → Bool) (rng : ℕ → ℕ)
    (st : URState α) (e : α) : Except MutationError (URState α) :=
  if st.finished then .error .stopIteration
  else if e ∉ st.ground then .error .keyError
  else
    let ground' := st.ground.erase e
    let witness' := st.witness.map (fun ws => rasDiscard ws e)
    if e ∉ st.pivots.toFinset then
      .ok { st with ground := ground', witness := witness' }
    else if ground' = ∅ then
      .ok { ground := ground', pivots := st.pivots, witness := witness',
            cnt := st.cnt, finished := true }
    else
      let k := st.pivots.indexOf e
      let avail := witness'.getD k []
      let pv0 := st.pivots.take k
      let r := pivotLoop indep rng pv0 (witness'.take k) avail st.cnt pv0.toFinset
      .ok { ground := ground', pivots := r.1, witness := r.2.1, cnt := r.2.2,
            finished := false }

end UniformRemoval

/-- The set of elements the claim describes as `witness_sets[i]`: the current
ground-set elements whose addition after pivots `0..i-1` keeps the set
independent.  (Stated from the claim's words, for comparison with the
stored witness sets.) -/
def claimWitnessSet (indep : Finset α → Bool) (st : URState α) (i : ℕ) : Finset α :=
  st.ground.filter (fun x => indep (insert x (st.pivots.take i).toFinset))

/-! ### Matroid axioms

The axioms a bulk independence oracle must satisfy for its family to be a
matroid (base.py docstring, spec §3): nonempty (the empty set is
independent), downward closed, and the augmentation/exchange property. -/

structure IsMatroidOn (indep : Finset α → Bool) : Prop where
  empty_indep : indep ∅ = true
  subset_indep : ∀ ⦃A B : Finset α⦄, A ⊆ B → indep B = true → indep A = true
  exchange : ∀ ⦃A B : Finset α⦄, indep A = true → indep B = true →
    A.card < B.card → ∃ x ∈ B, x ∉ A ∧ indep (insert x A) = true

/-- The uniform oracle `len(S) <= k` satisfies the matroid axioms. -/
theorem isMatroidOn_card_le (k : ℕ) :
    IsMatroidOn (fun S : Finset α => decide (S.card ≤ k)) := by
  refine ⟨by simp, ?_, ?_⟩
  · intro A B hAB hB
    simp only [decide_eq_true_eq] at hB ⊢
    exact le_trans (Finset.card_le_card hAB) hB
  · intro A B hA hB hcard
    simp only [decide_eq_true_eq] at hA hB ⊢
    have hne : (B \ A).Nonempty := by
      rw [Finset.sdiff_nonempty]
      intro hsub
      exact absurd (Finset.card_le_card hsub) (by omega)
    obtain ⟨x, hx⟩ := hne
    rw [Finset.mem_sdiff] at hx
    refine ⟨x, hx.1, hx.2, ?_⟩
    rw [Finset.card_insert_of_not_mem hx.2]
    omega

/-- The rank of (the restriction to) a ground set `X`: the largest size of an
independent subset of `X`. -/
def rank (indep : Finset α → Bool) (X : Finset α) : ℕ :=
  (X.powerset.filter (fun B => indep B)).sup Finset.card

/-! ### Basic greedy lemmas -/

theorem greedyCore_append (indep : Finset α → Bool) (S : Finset α) (a b : List α) :
    greedyCore indep S (a ++ b) = greedyCore indep (greedyCore indep S a) b := by
  induction a generalizing S with
  | nil => rfl
  | cons x xs ih => simp [greedyCore, ih]

theorem subset_greedyCore (indep : Finset α → Bool) (S : Finset α) (l : List α) :
    S ⊆ greedyCore indep S l := by
  induction l generalizing S with
  | nil => exact Finset.Subset.refl S
  | cons x xs ih =>
    refine Finset.Subset.trans ?_ (ih (add_if_independent indep S x).1)
    by_cases h : indep (insert x S) = true <;>
      simp [add_if_independent, would_be_independent_after_adding, h,
        Finset.subset_insert]

theorem greedyCore_subset (indep : Finset α → Bool) (S : Finset α) (l : List α) :
    greedyCore indep S l ⊆ S ∪ l.toFinset := by
  induction l generalizing S with
  | nil => simp [greedyCore]
  | cons x xs ih =>
    have h2 : (add_if_independent indep S x).1 ⊆ insert x S := by
      by_cases h : indep (insert x S) = true <;>
        simp [add_if_independent, would_be_independent_after_adding, h,
          Finset.subset_insert]
    calc greedyCore indep S (x :: xs)
        ⊆ (add_if_independent indep S x).1 ∪ xs.toFinset := ih _
      _ ⊆ insert x S ∪ xs.toFinset := Finset.union_subset_union h2 (le_refl _)
      _ = S ∪ (x :: xs).toFinset := by
          simp [Finset.insert_union, Finset.union_insert]

theorem indep_greedyCore (indep : Finset α → Bool) {S : Finset α} (l : List α)
    (hS : indep S = true) : indep (greedyCore indep S l) = true := by
  induction l generalizing S with
  | nil => exact hS
  | cons x xs ih =>
    by_cases h : indep (insert x S) = true <;>
      simp only [greedyCore, add_if_independent, would_be_independent_after_adding, h] <;>
      simp_all

/-- Greedy rejection is permanent (needs only downward closure): an element
of the processed list that is not in the greedy output cannot be added to
the output while keeping independence. -/
theorem greedyCore_maximal (indep : Finset α → Bool)
    (hdc : ∀ ⦃A B : Finset α⦄, A ⊆ B → indep B = true → indep A = true)
    {S : Finset α} (l : List α) {y : α} (hy : y ∈ l)
    (hny : y ∉ greedyCore indep S l) :
    ¬ indep (insert y (greedyCore indep S l)) = true := by
  induction l generalizing S with
  | nil => cases hy
  | cons x xs ih =>
    rcases List.mem_cons.mp hy with rfl | hmem
    · by_cases h : indep (insert y S) = true
      · exfalso
        apply hny
        have : y ∈ (add_if_independent indep S y).1 := by
          simp [add_if_independent, would_be_independent_after_adding, h]
        exact subset_greedyCore indep _ xs this
      · simp only [greedyCore, add_if_independent, would_be_independent_after_adding, h,
          if_false]
        intro hcon
        exact h (hdc (Finset.insert_subset_insert _ (subset_greedyCore indep S xs)) hcon)
    · exact ih hmem (S := (add_if_independent indep S x).1) hny

/-- Exchange bound: if `A` is independent and maximal within `X`, every
independent subset of `X` has size at most `A.card`. -/
theorem card_le_of_maximal {indep : Finset α → Bool} (hM : IsMatroidOn indep)
    {A B X : Finset α} (hA : indep A = true) (hB : indep B = true) (hBX : B ⊆ X)
    (hmax : ∀ y ∈ X, y ∉ A → ¬ indep (insert y A) = true) :
    B.card ≤ A.card := by
  by_contra hlt
  push_neg at hlt
  obtain ⟨x, hxB, hxA, hins⟩ := hM.exchange hA hB hlt
  exact hmax x (hBX hxB) hxA hins

/-! ### The greedy/prefix correspondence -/

theorem greedyCore_take_inter (indep : Finset α → Bool) {l : List α}
    (hnd : l.Nodup) (i : ℕ) :
    greedyCore indep ∅ l ∩ (l.take i).toFinset = greedyCore indep ∅ (l.take i) := by
  have hsplit := List.take_append_drop i l
  have hdisj : List.Disjoint (l.take i) (l.drop i) :=
    List.disjoint_take_drop hnd (le_refl i)
  apply Finset.Subset.antisymm
  · intro x hx
    rw [Finset.mem_inter] at hx
    obtain ⟨hxG, hxP⟩ := hx
    rw [← hsplit, greedyCore_append] at hxG
    rcases Finset.mem_union.mp (greedyCore_subset indep _ _ hxG) with hA | hD
    · exact hA
    · exfalso
      exact hdisj (List.mem_toFinset.mp hxP) (List.mem_toFinset.mp hD)
  · intro x hx
    rw [Finset.mem_inter]
    constructor
    · rw [← hsplit, greedyCore_append]
      exact subset_greedyCore indep _ _ hx
    · have := greedyCore_subset indep ∅ (l.take i) hx
      simpa using this

/-- Counting lemma: within every prefix of the processed list, the greedy
output is at least as large as any independent set. -/
theorem card_inter_take_le {indep : Finset α → Bool} (hM : IsMatroidOn indep)
    {l : List α} (hnd : l.Nodup) {B : Finset α} (hB : indep B = true) (i : ℕ) :
    (B ∩ (l.take i).toFinset).card ≤ (greedyCore indep ∅ l ∩ (l.take i).toFinset).card := by
  rw [greedyCore_take_inter indep hnd]
  refine card_le_of_maximal hM (indep_greedyCore indep _ hM.empty_indep)
    (hM.subset_indep (Finset.inter_subset_left) hB)
    (Finset.inter_subset_right) ?_
  intro y hy hny
  exact greedyCore_maximal indep hM.subset_indep (l.take i) (List.mem_toFinset.mp hy) hny

/-! ### Abel summation over the sorted list -/

/-- Weight of the list entry at index `i`, extended by 0 past the end. -/
def wAt (w : α → ℚ) (l : List α) (i : ℕ) : ℚ :=
  if h : i < l.length then w (l.get ⟨i, h⟩) else 0

theorem mem_take_iff_indexOf_lt {l : List α} (hnd : l.Nodup) {x : α} (hx : x ∈ l)
    (k : ℕ) : x ∈ l.take k ↔ l.indexOf x < k := by
  induction l generalizing k with
  | nil => cases hx
  | cons a t ih =>
    cases k with
    | zero => simp
    | succ k =>
      by_cases hxa : x = a
      · subst hxa
        simp [List.indexOf_cons_self]
      · have hxt : x ∈ t := by
          rcases List.mem_cons.mp hx with h | h
          · exact absurd h hxa
          · exact h
        rw [List.take_succ_cons, List.mem_cons, List.indexOf_cons_ne _ (Ne.symm hxa)]
        rw [ih hnd.of_cons hxt]
        constructor
        · rintro (rfl | h)
          · exact absurd rfl hxa
          · omega
        · intro h
          right
          omega

theorem telescope_Ico (f : ℕ → ℚ) {j n : ℕ} (h : j ≤ n) :
    ∑ i ∈ Finset.Ico j n, (f i - f (i + 1)) = f j - f n := by
  rw [Finset.sum_Ico_eq_sub _ h, Finset.sum_range_sub' f, Finset.sum_range_sub' f]
  ring

/-- Abel summation: the weight of any subset of a list's elements is the sum,
over the list positions, of the weight drop at that position times the size
of the subset's intersection with the corresponding prefix. -/
theorem sum_eq_telescope {w : α → ℚ} {l : List α} (hnd : l.Nodup)
    {A : Finset α} (hA : A ⊆ l.toFinset) :
    A.sum w = ∑ i ∈ Finset.range l.length,
      (wAt w l i - wAt w l (i + 1)) * ((A ∩ (l.take (i + 1)).toFinset).card : ℚ) := by
  have hcard : ∀ k : ℕ, ((A ∩ (l.take k).toFinset).card : ℚ) =
      ∑ x ∈ A, if x ∈ (l.take k).toFinset then (1 : ℚ) else 0 := by
    intro k
    rw [Finset.sum_ite_mem, Finset.sum_const, nsmul_eq_mul, mul_one]
  have hrw : ∀ i ∈ Finset.range l.length,
      (wAt w l i - wAt w l (i + 1)) * ((A ∩ (l.take (i + 1)).toFinset).card : ℚ) =
      ∑ x ∈ A, (wAt w l i - wAt w l (i + 1)) *
        (if x ∈ (l.take (i + 1)).toFinset then (1 : ℚ) else 0) := by
    intro i _
    rw [hcard, Finset.mul_sum]
  rw [Finset.sum_congr rfl hrw, Finset.sum_comm]
  refine Finset.sum_congr rfl ?_
  intro x hxA
  have hxl : x ∈ l := List.mem_toFinset.mp (hA hxA)
  have hj : l.indexOf x < l.length := List.indexOf_lt_length.mpr hxl
  have hstep : ∀ i ∈ Finset.range l.length,
      (wAt w l i - wAt w l (i + 1)) * (if x ∈ (l.take (i + 1)).toFinset then (1 : ℚ) else 0) =
      if l.indexOf x ≤ i then wAt w l i - wAt w l (i + 1) else 0 := by
    intro i _
    by_cases hmem : x ∈ (l.take (i + 1)).toFinset
    · have : l.indexOf x ≤ i := by
        have := (mem_take_iff_indexOf_lt hnd hxl (i + 1)).mp (List.mem_toFinset.mp hmem)
        omega
      simp [hmem, this]
    · have : ¬ l.indexOf x ≤ i := by
        intro hle
        exact hmem (List.mem_toFinset.mpr
          ((mem_take_iff_indexOf_lt hnd hxl (i + 1)).mpr (by omega)))
      simp [hmem, this]
  rw [Finset.sum_congr rfl hstep, Finset.sum_ite, Finset.sum_const_zero, add_zero]
  have hfilter : (Finset.range l.length).filter (fun i => l.indexOf x ≤ i) =
      Finset.Ico (l.indexOf x) l.length := by
    ext i
    simp [Finset.mem_filter, Finset.mem_range, Finset.mem_Ico, and_comm]
  rw [hfilter, telescope_Ico _ (le_of_lt hj)]
  have h1 : wAt w l (l.indexOf x) = w x := by
    rw [wAt, dif_pos hj]
    congr 1
    exact List.indexOf_get hj
  have h2 : wAt w l l.length = 0 := by
    rw [wAt, dif_neg (lt_irrefl _)]
  rw [h1, h2, sub_zero]

/-- The greedy output over a descending-sorted, non-negative-weight, nodup
list weighs at least as much as any independent subset of its elements. -/
theorem greedy_weight_ge {indep : Finset α → Bool} (hM : IsMatroidOn indep)
    {w : α → ℚ} {l : List α} (hnd : l.Nodup) (hsorted : l.Sorted (wge w))
    (hnonneg : ∀ x ∈ l, 0 ≤ w x)
    {B : Finset α} (hB : indep B = true) (hBl : B ⊆ l.toFinset) :
    B.sum w ≤ (greedyCore indep ∅ l).sum w := by
  have hGl : greedyCore indep ∅ l ⊆ l.toFinset := by
    have := greedyCore_subset indep ∅ l
    simpa using this
  rw [sum_eq_telescope hnd hBl, sum_eq_telescope hnd hGl]
  apply Finset.sum_le_sum
  intro i hi
  rw [Finset.mem_range] at hi
  have hc : 0 ≤ wAt w l i - wAt w l (i + 1) := by
    by_cases hi1 : i + 1 < l.length
    · have hrel := List.Sorted.rel_get_of_lt hsorted
        (show (⟨i, by omega⟩ : Fin l.length) < ⟨i + 1, hi1⟩ from by
          simp [Fin.lt_def])
      rw [wAt, wAt, dif_pos hi, dif_pos hi1]
      have : w (l.get ⟨i + 1, hi1⟩) ≤ w (l.get ⟨i, by omega⟩) := hrel
      linarith
    · rw [wAt, wAt, dif_pos hi, dif_neg hi1, sub_zero]
      exact hnonneg _ (l.get_mem _ _)
  have hcount := card_inter_take_le hM hnd hB (i + 1)
  have hcount' : ((B ∩ (l.take (i + 1)).toFinset).card : ℚ) ≤
      ((greedyCore indep ∅ l ∩ (l.take (i + 1)).toFinset).card : ℚ) := by
    exact_mod_cast hcount
  exact mul_le_mul_of_nonneg_left hcount' hc

/-- C2 (confirmed): for every weighted matroid (a finite ground list without
duplicates, an independence oracle satisfying the matroid axioms, and
arbitrary weights), the set returned by `maximal_independent_set` is an
independent subset of the ground set, and its total weight is the greatest
total weight over all independent subsets of the ground set — in
particular, it matches any MWIS found by brute-force enumeration. -/
theorem C2_static_greedy_correct {indep : Finset α → Bool}
    (hM : IsMatroidOn indep) (w : α → ℚ) {ground : List α} (hnd : ground.Nodup) :
    indep (maximal_independent_set indep w ground) = true ∧
    maximal_independent_set indep w ground ⊆ ground.toFinset ∧
    IsGreatest {q : ℚ | ∃ B ⊆ ground.toFinset, indep B = true ∧ q = B.sum w}
      ((maximal_independent_set indep w ground).sum w) := by
  set l := sortDescWeight w (ground.filter (fun x => 0 ≤ w x)) with hl
  have hperm : List.Perm l (ground.filter (fun x => 0 ≤ w x)) :=
    List.perm_insertionSort (wge w) _
  have hndl : l.Nodup := (List.Perm.nodup_iff hperm).mpr (hnd.filter _)
  have hltf : l.toFinset = (ground.filter (fun x => 0 ≤ w x)).toFinset := by
    ext x
    simp only [List.mem_toFinset]
    exact hperm.mem_iff
  have hsorted : l.Sorted (wge w) := List.sorted_insertionSort (wge w) _
  have hnonneg : ∀ x ∈ l, 0 ≤ w x := by
    intro x hx
    have := List.mem_filter.mp (hperm.mem_iff.mp hx)
    simpa using this.2
  have hGdef : maximal_independent_set indep w ground = greedyCore indep ∅ l := rfl
  have hsub : maximal_independent_set indep w ground ⊆ ground.toFinset := by
    rw [hGdef]
    intro x hx
    have := greedyCore_subset indep ∅ l hx
    rw [Finset.empty_union, hltf] at this
    have := List.mem_filter.mp (List.mem_toFinset.mp this)
    exact List.mem_toFinset.mpr this.1
  refine ⟨by rw [hGdef]; exact indep_greedyCore indep l hM.empty_indep, hsub, ?_, ?_⟩
  · exact ⟨maximal_independent_set indep w ground, hsub,
      by rw [hGdef]; exact indep_greedyCore indep l hM.empty_indep, rfl⟩
  · rintro q ⟨B, hBg, hBi, rfl⟩
    set Bp := B.filter (fun x => 0 ≤ w x) with hBp
    have hsum_le : B.sum w ≤ Bp.sum w := by
      have hsplit := Finset.sum_filter_add_sum_filter_not B (fun x => 0 ≤ w x) w
      have hneg : (B.filter (fun x => ¬ 0 ≤ w x)).sum w ≤ 0 := by
        apply Finset.sum_nonpos
        intro x hx
        have := (Finset.mem_filter.mp hx).2
        linarith [not_le.mp this]
      linarith
    have hBpi : indep Bp = true := hM.subset_indep (Finset.filter_subset _ _) hBi
    have hBpl : Bp ⊆ l.toFinset := by
      intro x hx
      rw [hltf, List.mem_toFinset, List.mem_filter]
      obtain ⟨hxB, hxw⟩ := Finset.mem_filter.mp hx
      exact ⟨List.mem_toFinset.mp (hBg hxB), by simpa using hxw⟩
    calc B.sum w ≤ Bp.sum w := hsum_le
      _ ≤ (maximal_independent_set indep w ground).sum w := by
          rw [hGdef]
          exact greedy_weight_ge hM hndl hsorted hnonneg hBpi hBpl

/-- A concrete rank-1 uniform oracle, for the closed instances below. -/
def indep₀ : Finset ℕ → Bool := fun S => decide (S.card ≤ 1)

/-- Concrete weights `w x = x + 1` for the closed instances below. -/
def w₀ : ℕ → ℚ := fun x => (x : ℚ) + 1

/-- Closed instance of C2: the free uniform oracle of rank 1 over ground
list `[0, 1]` with weights `w x = x + 1`. -/
theorem C2_static_greedy_correct_witness :
    IsMatroidOn (fun S : Finset ℕ => decide (S.card ≤ 1)) ∧
    ([0, 1] : List ℕ).Nodup ∧
    (indep₀ (maximal_independent_set indep₀ w₀ [0, 1]) = true ∧
      maximal_independent_set indep₀ w₀ [0, 1] ⊆ ([0, 1] : List ℕ).toFinset ∧
      IsGreatest {q : ℚ | ∃ B ⊆ ([0, 1] : List ℕ).toFinset, indep₀ B = true ∧ q = B.sum w₀}
        ((maximal_independent_set indep₀ w₀ [0, 1]).sum w₀)) :=
  ⟨isMatroidOn_card_le 1, by decide,
    C2_static_greedy_correct (isMatroidOn_card_le 1) w₀ (by decide)⟩

/-! ### Facts about the swap-with-last discard -/

theorem rasDiscard_perm {l : List α} {x : α} (hnd : l.Nodup) (h : x ∈ l) :
    List.Perm (rasDiscard l x) (l.erase x) := by
  have hne := List.ne_nil_of_mem h
  have hj : l.indexOf x < l.length := List.indexOf_lt_length.mpr h
  have hget : l[l.indexOf x] = x := List.getElem_indexOf hj
  have hxt : x ∉ l.take (l.indexOf x) := by
    intro hmem
    have := (mem_take_iff_indexOf_lt hnd h (l.indexOf x)).mp hmem
    omega
  have hldecomp : l = l.take (l.indexOf x) ++ x :: l.drop (l.indexOf x + 1) := by
    conv_lhs => rw [← List.take_append_drop (l.indexOf x) l]
    congr 1
    rw [List.drop_eq_getElem_cons hj, hget]
  have herase : l.erase x = l.take (l.indexOf x) ++ l.drop (l.indexOf x + 1) := by
    conv_lhs => rw [hldecomp]
    rw [List.erase_append_right _ hxt, List.erase_cons_head]
  rw [rasDiscard, dif_pos h, List.set_eq_take_cons_drop _ hj, herase]
  by_cases hjl : l.indexOf x + 1 < l.length
  · have hdnn : l.drop (l.indexOf x + 1) ≠ [] := by
      intro hnil
      have := List.drop_eq_nil_iff.mp hnil
      omega
    have hlast_eq : l.getLast hne = (l.drop (l.indexOf x + 1)).getLast hdnn := by
      rw [List.getLast_congr hne (by simp) hldecomp,
        List.getLast_append' _ _ (List.cons_ne_nil _ _)]
      exact List.getLast_cons hdnn
    rw [List.dropLast_append_cons, List.dropLast_cons_of_ne_nil hdnn, hlast_eq]
    apply List.Perm.append_left
    conv_rhs => rw [← List.dropLast_append_getLast hdnn]
    exact (List.perm_append_singleton _ _).symm
  · have hdrop : l.drop (l.indexOf x + 1) = [] := by
      apply List.drop_eq_nil_iff.mpr
      omega
    rw [hdrop, List.dropLast_concat, List.append_nil]

theorem rasDiscard_nodup {l : List α} (hnd : l.Nodup) (x : α) :
    (rasDiscard l x).Nodup := by
  by_cases h : x ∈ l
  · exact ((rasDiscard_perm hnd h).nodup_iff).mpr (hnd.erase x)
  · rw [rasDiscard, dif_neg h]
    exact hnd

theorem rasDiscard_toFinset {l : List α} (hnd : l.Nodup) (x : α) :
    (rasDiscard l x).toFinset = l.toFinset.erase x := by
  by_cases h : x ∈ l
  · ext y
    rw [List.mem_toFinset, (rasDiscard_perm hnd h).mem_iff, Finset.mem_erase,
      List.Nodup.mem_erase_iff hnd, List.mem_toFinset]
  · rw [rasDiscard, dif_neg h, Finset.erase_eq_of_not_mem (by simpa using h)]

theorem rasDiscard_nil (x : α) : rasDiscard ([] : List α) x = [] := by
  rw [rasDiscard, dif_neg (List.not_mem_nil x)]

/-! ### `getD` helpers for list surgery -/

theorem getD_append_lt {β : Type} (A B : List β) (i : ℕ) (d : β) (h : i < A.length) :
    (A ++ B).getD i d = A.getD i d := by
  unfold List.getD
  rw [List.get?_append h]

theorem getD_append_len {β : Type} (A : List β) (b : β) (B : List β) (d : β) :
    (A ++ b :: B).getD A.length d = b := by
  unfold List.getD
  rw [List.get?_append_right (le_refl _), Nat.sub_self]
  rfl

theorem getD_map_self {β : Type} (f : β → β) (l : List β) (i : ℕ) {d : β}
    (hd : f d = d) : (l.map f).getD i d = f (l.getD i d) := by
  unfold List.getD
  rw [List.get?_eq_getElem?, List.get?_eq_getElem?, List.getElem?_map]
  by_cases h : i < l.length
  · rw [List.getElem?_eq_getElem h]
    rfl
  · rw [List.getElem?_eq_none (by omega)]
    simp [hd]

theorem getD_take_of_lt {β : Type} (l : List β) {i k : ℕ} (d : β) (h : i < k) :
    (l.take k).getD i d = l.getD i d := by
  unfold List.getD
  rw [List.get?_take h]

/-! ### The uniform-removal invariant -/

/-- The set actually stored in `witness_sets[i]`: current ground elements not
among the pivots of steps `0..i` whose addition after pivots `0..i-1` keeps
independence.  (The claim's description omits the exclusion of the step-`i`
pivot itself.) -/
def witFml (indep : Finset α → Bool) (ground : Finset α) (pv : List α) (i : ℕ) :
    Finset α :=
  ground.filter (fun x => x ∉ (pv.take (i + 1)).toFinset ∧
    indep (insert x (pv.take i).toFinset) = true)

structure URInvAux (indep : Finset α → Bool) (ground : Finset α)
    (pivots : List α) (witness : List (List α)) : Prop where
  hlen : witness.length = pivots.length + 1
  hnd : pivots.Nodup
  hsub : pivots.toFinset ⊆ ground
  hindep : indep pivots.toFinset = true
  hws : ∀ i < witness.length, (witness.getD i []).Nodup ∧
      (witness.getD i []).toFinset = witFml indep ground pivots i
  hlast : witness.getD pivots.length [] = []

/-- The state invariant of the uniform-removal generator: when the matroid
has become empty the generator is finished; while it is live, the pivot and
witness bookkeeping satisfies `URInvAux`. -/
def URGood (indep : Finset α → Bool) (st : URState α) : Prop :=
  (st.finished = true → st.ground = ∅) ∧
  (st.finished = false → URInvAux indep st.ground st.pivots st.witness)

theorem take_append_le {l₁ l₂ : List α} {n : ℕ} (h : n ≤ l₁.length) :
    (l₁ ++ l₂).take n = l₁.take n := by
  rw [List.take_append_eq_append_take, Nat.sub_eq_zero_of_le h, List.take_zero,
    List.append_nil]

theorem witFml_take_stable (indep : Finset α → Bool) (ground : Finset α)
    {pv : List α} (rest : List α) {i : ℕ} (h : i < pv.length) :
    witFml indep ground (pv ++ rest) i = witFml indep ground pv i := by
  unfold witFml
  rw [take_append_le (by omega), take_append_le (by omega)]

theorem mem_toFinset_append_singleton (pv : List α) (p y : α) :
    y ∈ (pv ++ [p]).toFinset ↔ (y ∈ pv.toFinset ∨ y = p) := by
  simp

/-- The filtered set computed for the next witness set in the pivot loop. -/
theorem avail_step_set {indep : Finset α → Bool}
    (hdc : ∀ ⦃A B : Finset α⦄, A ⊆ B → indep B = true → indep A = true)
    {ground : Finset α} {pv : List α} {S : Finset α} {avail : List α}
    (havnd : avail.Nodup)
    (hav : avail.toFinset = ground.filter
      (fun x => x ∉ pv.toFinset ∧ indep (insert x S) = true)) (p : α) :
    ((rasDiscard avail p).filter (fun x => indep (insert x (insert p S)))).toFinset =
      ground.filter (fun x => x ∉ (pv ++ [p]).toFinset ∧
        indep (insert x (insert p S)) = true) := by
  ext x
  rw [List.toFinset_filter, Finset.mem_filter, rasDiscard_toFinset havnd p,
    Finset.mem_erase, hav, Finset.mem_filter, Finset.mem_filter]
  constructor
  · rintro ⟨⟨hxp, hxg, hxpv, _⟩, hq⟩
    refine ⟨hxg, ?_, hq⟩
    rw [mem_toFinset_append_singleton]
    rintro (hc | hc)
    · exact hxpv hc
    · exact hxp hc
  · rintro ⟨hxg, hnotin, hq⟩
    rw [mem_toFinset_append_singleton] at hnotin
    push_neg at hnotin
    refine ⟨⟨hnotin.2, hxg, hnotin.1, ?_⟩, hq⟩
    exact hdc (Finset.insert_subset_insert _ (Finset.subset_insert _ _)) hq

/-- The set stored as the step witness set once its pivot is discarded. -/
theorem avail_store_set {indep : Finset α → Bool}
    {ground : Finset α} {pv : List α} {S : Finset α} {avail : List α}
    (hS : S = pv.toFinset) (havnd : avail.Nodup)
    (hav : avail.toFinset = ground.filter
      (fun x => x ∉ pv.toFinset ∧ indep (insert x S) = true)) (p : α) :
    (rasDiscard avail p).toFinset = witFml indep ground (pv ++ [p]) pv.length := by
  have ht1 : (pv ++ [p]).take (pv.length + 1) = pv ++ [p] :=
    List.take_of_length_le (by simp)
  have ht2 : (pv ++ [p]).take pv.length = pv := by
    rw [List.take_append_eq_append_take, Nat.sub_self, List.take_zero,
      List.append_nil, List.take_length]
  subst hS
  unfold witFml
  rw [ht1, ht2, rasDiscard_toFinset havnd p, hav]
  ext x
  rw [Finset.mem_erase, Finset.mem_filter, Finset.mem_filter]
  constructor
  · rintro ⟨hxp, hxg, hxpv, hxi⟩
    refine ⟨hxg, ?_, hxi⟩
    rw [mem_toFinset_append_singleton]
    rintro (hc | hc)
    · exact hxpv hc
    · exact hxp hc
  · rintro ⟨hxg, hnotin, hxi⟩
    rw [mem_toFinset_append_singleton] at hnotin
    push_neg at hnotin
    exact ⟨hnotin.2, hxg, hnotin.1, hxi⟩

/-- One unfolding of the pivot loop in the non-empty case. -/
theorem pivotLoop_step {indep : Finset α → Bool} (rng : ℕ → ℕ)
    {avail : List α} (h : ¬ avail = []) (pv : List α) (ws : List (List α))
    (cnt : ℕ) (S : Finset α) :
    UniformRemoval.pivotLoop indep rng pv ws avail cnt S =
      UniformRemoval.pivotLoop indep rng
        (pv ++ [avail.get ⟨rng cnt % avail.length,
          Nat.mod_lt _ (List.length_pos.mpr h)⟩])
        (ws ++ [rasDiscard avail (avail.get ⟨rng cnt % avail.length,
          Nat.mod_lt _ (List.length_pos.mpr h)⟩)])
        ((rasDiscard avail (avail.get ⟨rng cnt % avail.length,
          Nat.mod_lt _ (List.length_pos.mpr h)⟩)).filter
          (fun x => indep (insert x (insert (avail.get ⟨rng cnt % avail.length,
            Nat.mod_lt _ (List.length_pos.mpr h)⟩) S))))
        (cnt + 1)
        (insert (avail.get ⟨rng cnt % avail.length,
          Nat.mod_lt _ (List.length_pos.mpr h)⟩) S) := by
  conv_lhs => rw [UniformRemoval.pivotLoop]
  rw [dif_neg h]

/-- Exiting pivot loop: the empty case. -/
theorem pivotLoop_nil {indep : Finset α → Bool} (rng : ℕ → ℕ)
    (pv : List α) (ws : List (List α)) (cnt : ℕ) (S : Finset α) :
    UniformRemoval.pivotLoop indep rng pv ws [] cnt S = (pv, ws ++ [[]], cnt) := by
  rw [UniformRemoval.pivotLoop]
  rfl

/-- The invariant obtained when the pivot loop exits (empty available set). -/
theorem pivotLoop_spec_nil {indep : Finset α → Bool} {ground : Finset α}
    {pv : List α} {ws : List (List α)} {S : Finset α}
    (hS : S = pv.toFinset) (hpvnd : pv.Nodup) (hpvsub : pv.toFinset ⊆ ground)
    (hindepS : indep S = true)
    (hav : ground.filter
      (fun x => x ∉ pv.toFinset ∧ indep (insert x S) = true) = ∅)
    (hwsl : ws.length = pv.length)
    (hpre : ∀ i < pv.length, (ws.getD i []).Nodup ∧
      (ws.getD i []).toFinset = witFml indep ground pv i) :
    URInvAux indep ground pv (ws ++ [[]]) := by
  subst hS
  refine ⟨by simp [hwsl], hpvnd, hpvsub, hindepS, ?_, ?_⟩
  · intro i hi
    simp only [List.length_append, List.length_cons, List.length_nil, hwsl] at hi
    by_cases hilt : i < pv.length
    · rw [getD_append_lt _ _ _ _ (by omega)]
      exact hpre i hilt
    · have hieq : i = pv.length := by omega
      subst hieq
      rw [← hwsl, getD_append_len]
      refine ⟨List.nodup_nil, ?_⟩
      rw [List.toFinset_nil]
      unfold witFml
      rw [hwsl, List.take_of_length_le (by omega), List.take_length]
      exact hav.symm
  · rw [← hwsl, getD_append_len]

/-- Specification of the pivot loop: from a consistent partial state it
produces a pivot list extending the given one together with a witness list
satisfying the full invariant. -/
theorem pivotLoop_spec {indep : Finset α → Bool}
    (hdc : ∀ ⦃A B : Finset α⦄, A ⊆ B → indep B = true → indep A = true)
    (rng : ℕ → ℕ) (ground : Finset α) :
    ∀ (n : ℕ) (pv : List α) (wsPrefix : List (List α)) (avail : List α)
      (cnt : ℕ) (S : Finset α),
      avail.length ≤ n →
      S = pv.toFinset → pv.Nodup → pv.toFinset ⊆ ground → indep S = true →
      avail.Nodup →
      avail.toFinset = ground.filter
        (fun x => x ∉ pv.toFinset ∧ indep (insert x S) = true) →
      wsPrefix.length = pv.length →
      (∀ i < pv.length, ((wsPrefix.getD i []).Nodup ∧
        (wsPrefix.getD i []).toFinset = witFml indep ground pv i)) →
      ∃ rest : List α,
        (UniformRemoval.pivotLoop indep rng pv wsPrefix avail cnt S).1 = pv ++ rest ∧
        URInvAux indep ground (UniformRemoval.pivotLoop indep rng pv wsPrefix avail cnt S).1
          (UniformRemoval.pivotLoop indep rng pv wsPrefix avail cnt S).2.1 := by
  intro n
  induction n with
  | zero =>
    intro pv ws avail cnt S hn hS hpvnd hpvsub hindepS havnd hav hwsl hpre
    have havail : avail = [] := List.length_eq_zero.mp (by omega)
    subst havail
    rw [pivotLoop_nil]
    refine ⟨[], by simp, ?_⟩
    exact pivotLoop_spec_nil hS hpvnd hpvsub hindepS (by simpa using hav.symm) hwsl hpre
  | succ n ihn =>
    intro pv ws avail cnt S hn hS hpvnd hpvsub hindepS havnd hav hwsl hpre
    by_cases havail : avail = []
    · subst havail
      rw [pivotLoop_nil]
      refine ⟨[], by simp, ?_⟩
      exact pivotLoop_spec_nil hS hpvnd hpvsub hindepS (by simpa using hav.symm) hwsl hpre
    · rw [pivotLoop_step rng havail]
      set p := avail.get ⟨rng cnt % avail.length,
        Nat.mod_lt _ (List.length_pos.mpr havail)⟩ with hp_def
      have hp_mem : p ∈ avail := avail.get_mem _ _
      have hp_fin : p ∈ avail.toFinset := List.mem_toFinset.mpr hp_mem
      rw [hav, Finset.mem_filter] at hp_fin
      obtain ⟨hpg, hppv, hpind⟩ := hp_fin
      have hpnotmem : p ∉ pv := fun hc => hppv (List.mem_toFinset.mpr hc)
      have hS' : insert p S = (pv ++ [p]).toFinset := by
        rw [hS]
        ext y
        simp [or_comm]
      have havnd' : (rasDiscard avail p).Nodup := rasDiscard_nodup havnd p
      have hav' : (rasDiscard avail p).toFinset = avail.toFinset.erase p :=
        rasDiscard_toFinset havnd p
      obtain ⟨rest, hext, hinv⟩ := ihn (pv ++ [p])
        (ws ++ [rasDiscard avail p])
        ((rasDiscard avail p).filter (fun x => indep (insert x (insert p S))))
        (cnt + 1) (insert p S)
        (by
          have h1 : (rasDiscard avail p).length < avail.length :=
            rasDiscard_length_lt hp_mem
          have h2 := List.length_filter_le
            (fun x => indep (insert x (insert p S))) (rasDiscard avail p)
          omega)
        hS'
        (by simp [List.nodup_append, hpvnd, hpnotmem])
        (by
          rw [← hS']
          exact Finset.insert_subset hpg (hS ▸ hpvsub))
        (hS' ▸ hpind)
        (havnd'.filter _)
        (by
          have := avail_step_set hdc havnd hav p
          rw [← hS'] at this
          convert this using 3
          rw [hS'])
        (by simp [hwsl])
        (by
          intro i hi
          simp only [List.length_append, List.length_cons, List.length_nil] at hi
          by_cases hilt : i < pv.length
          · rw [getD_append_lt _ _ _ _ (by omega)]
            rw [witFml_take_stable indep ground [p] hilt]
            exact hpre i hilt
          · have hieq : i = pv.length := by omega
            subst hieq
            have hgd : (ws ++ [rasDiscard avail p]).getD pv.length [] =
                rasDiscard avail p := by
              rw [← hwsl, getD_append_len]
            rw [hgd]
            exact ⟨havnd', avail_store_set hS havnd hav p⟩)
      refine ⟨p :: rest, ?_, ?_⟩
      · rw [hext]
        simp
      · exact hinv

theorem witFml_erase (indep : Finset α → Bool) (ground : Finset α)
    (pv : List α) (i : ℕ) (e : α) :
    witFml indep (ground.erase e) pv i = (witFml indep ground pv i).erase e := by
  unfold witFml
  rw [Finset.filter_erase]

theorem witFml_take_prefix (indep : Finset α → Bool) (ground : Finset α)
    {pv : List α} {i k : ℕ} (h : i < k) :
    witFml indep ground (pv.take k) i = witFml indep ground pv i := by
  unfold witFml
  rw [List.take_take, List.take_take, min_eq_left (by omega), min_eq_left (by omega)]

/-- The generator's constructor establishes the state invariant. -/
theorem init_good {indep : Finset α → Bool}
    (hdc : ∀ ⦃A B : Finset α⦄, A ⊆ B → indep B = true → indep A = true)
    (hem : indep ∅ = true) (rng : ℕ → ℕ) {ground : Finset α} {order : List α}
    (hnd : order.Nodup) (hot : order.toFinset = ground) :
    URGood indep (UniformRemoval.init indep rng ground order) := by
  unfold UniformRemoval.init
  by_cases hg : ground = ∅
  · rw [if_pos hg]
    refine ⟨fun _ => hg, fun hc => ?_⟩
    cases hc
  · rw [if_neg hg]
    refine ⟨(fun hc => by cases hc), fun _ => ?_⟩
    obtain ⟨rest, hext, hinv⟩ := pivotLoop_spec hdc rng ground
      (order.filter (fun x => indep {x})).length
      [] [] (order.filter (fun x => indep {x})) 0 ∅
      (le_refl _) (by simp) List.nodup_nil (by simp) hem
      (hnd.filter _)
      (by
        ext x
        rw [List.toFinset_filter, ← hot, Finset.mem_filter, Finset.mem_filter]
        simp)
      rfl
      (by intro i hi; cases hi)
    exact hinv

/-- A single generator step preserves the state invariant. -/
theorem remove_good {indep : Finset α → Bool}
    (hdc : ∀ ⦃A B : Finset α⦄, A ⊆ B → indep B = true → indep A = true)
    (rng : ℕ → ℕ) {st st' : URState α} {e : α}
    (hgood : URGood indep st)
    (h : UniformRemoval.remove_element indep rng st e = .ok st') :
    URGood indep st' := by
  unfold UniformRemoval.remove_element at h
  by_cases hfin : st.finished = true
  · rw [if_pos (by simp [hfin])] at h
    cases h
  have hfin' : st.finished = false := by
    cases hb : st.finished
    · rfl
    · exact absurd hb hfin
  rw [if_neg (by simp [hfin'])] at h
  by_cases hmem : e ∈ st.ground
  · rw [if_neg (by simpa using hmem)] at h
    obtain hinv := hgood.2 hfin'
    by_cases hpiv : e ∈ st.pivots.toFinset
    · rw [if_neg (by simpa using hpiv)] at h
      by_cases hge : st.ground.erase e = ∅
      · rw [if_pos hge] at h
        cases h
        refine ⟨fun _ => hge, fun hc => ?_⟩
        cases hc
      · rw [if_neg hge] at h
        cases h
        refine ⟨(fun hc => by cases hc), fun _ => ?_⟩
        have he_mem : e ∈ st.pivots := List.mem_toFinset.mp hpiv
        set k := st.pivots.indexOf e with hkdef
        have hk : k < st.pivots.length := List.indexOf_lt_length.mpr he_mem
        have hgete : st.pivots[k] = e := List.getElem_indexOf hk
        have hwslen : st.witness.length = st.pivots.length + 1 := hinv.hlen
        have hkw : k < st.witness.length := by omega
        obtain ⟨hwnd, hwtf⟩ := hinv.hws k hkw
        have hmapk : (st.witness.map (fun ws => rasDiscard ws e)).getD k [] =
            rasDiscard (st.witness.getD k []) e :=
          getD_map_self _ _ _ (rasDiscard_nil e)
        set pv0 := st.pivots.take k with hpv0
        have hpv0nd : pv0.Nodup := (List.take_sublist k st.pivots).nodup hinv.hnd
        have hpv0sub : pv0.toFinset ⊆ st.ground.erase e := by
          intro x hx
          have hxp : x ∈ st.pivots := List.take_subset _ _ (List.mem_toFinset.mp hx)
          rw [Finset.mem_erase]
          refine ⟨?_, hinv.hsub (List.mem_toFinset.mpr hxp)⟩
          intro hc
          subst hc
          have := (mem_take_iff_indexOf_lt hinv.hnd he_mem k).mp
            (List.mem_toFinset.mp hx)
          omega
        have hpv0ind : indep pv0.toFinset = true := by
          refine hdc ?_ hinv.hindep
          intro x hx
          exact List.mem_toFinset.mpr (List.take_subset _ _ (List.mem_toFinset.mp hx))
        have htake_succ : st.pivots.take (k + 1) = pv0 ++ [e] := by
          rw [hpv0, ← hgete, ← List.concat_eq_append]
          exact (List.take_concat_get _ _ hk).symm
        have hav : (rasDiscard (st.witness.getD k []) e).toFinset =
            (st.ground.erase e).filter
              (fun x => x ∉ pv0.toFinset ∧ indep (insert x pv0.toFinset) = true) := by
          rw [rasDiscard_toFinset hwnd e, hwtf]
          unfold witFml
          rw [htake_succ]
          ext x
          rw [Finset.mem_erase, Finset.mem_filter, Finset.mem_filter, Finset.mem_erase]
          constructor
          · rintro ⟨hxe, hxg, hxpv, hxi⟩
            refine ⟨⟨hxe, hxg⟩, ?_, hxi⟩
            intro hc
            apply hxpv
            rw [mem_toFinset_append_singleton]
            exact Or.inl hc
          · rintro ⟨⟨hxe, hxg⟩, hxpv, hxi⟩
            refine ⟨hxe, hxg, ?_, hxi⟩
            rw [mem_toFinset_append_singleton]
            rintro (hc | hc)
            · exact hxpv hc
            · exact hxe hc
        obtain ⟨rest, hext, hinv'⟩ := pivotLoop_spec hdc rng (st.ground.erase e)
          (rasDiscard (st.witness.getD k []) e).length
          pv0 ((st.witness.map (fun ws => rasDiscard ws e)).take k)
          ((st.witness.map (fun ws => rasDiscard ws e)).getD k [])
          st.cnt pv0.toFinset
          (by rw [hmapk])
          rfl hpv0nd hpv0sub hpv0ind
          (by rw [hmapk]; exact rasDiscard_nodup hwnd e)
          (by rw [hmapk]; exact hav)
          (by
            rw [List.length_take, List.length_map, List.length_take]
            omega)
          (by
            intro i hi
            rw [hpv0, List.length_take, min_eq_left (by omega)] at hi
            rw [getD_take_of_lt _ _ hi,
              getD_map_self _ _ _ (rasDiscard_nil e)]
            obtain ⟨hnd_i, htf_i⟩ := hinv.hws i (by omega)
            refine ⟨rasDiscard_nodup hnd_i e, ?_⟩
            rw [rasDiscard_toFinset hnd_i e, htf_i, ← witFml_erase,
              witFml_take_prefix indep _ hi])
        exact hinv'
    · rw [if_pos (by simpa using hpiv)] at h
      cases h
      refine ⟨(fun hc => by rw [hfin'] at hc; cases hc), fun _ => ?_⟩
      obtain hinv := hinv
      refine ⟨by simpa using hinv.hlen, hinv.hnd, ?_, hinv.hindep, ?_, ?_⟩
      · rw [Finset.subset_erase]
        exact ⟨hinv.hsub, fun hc => hpiv hc⟩
      · intro i hi
        rw [List.length_map] at hi
        rw [getD_map_self _ _ _ (rasDiscard_nil e)]
        obtain ⟨hnd_i, htf_i⟩ := hinv.hws i hi
        refine ⟨rasDiscard_nodup hnd_i e, ?_⟩
        rw [rasDiscard_toFinset hnd_i e, htf_i, witFml_erase]
      · rw [getD_map_self _ _ _ (rasDiscard_nil e), hinv.hlast, rasDiscard_nil]
  · rw [if_pos (by simpa using hmem)] at h
    cases h

/-- A sequence of `send`s into the uniform-removal generator. -/
def runRemovals (indep : Finset α → Bool) (rng : ℕ → ℕ) :
    URState α → List α → Except MutationError (URState α)
  | st, [] => .ok st
  | st, e :: es =>
    match UniformRemoval.remove_element indep rng st e with
    | .error er => .error er
    | .ok st' => runRemovals indep rng st' es

theorem runRemovals_good {indep : Finset α → Bool}
    (hdc : ∀ ⦃A B : Finset α⦄, A ⊆ B → indep B = true → indep A = true)
    (rng : ℕ → ℕ) {st st' : URState α} {es : List α} (hgood : URGood indep st)
    (h : runRemovals indep rng st es = .ok st') : URGood indep st' := by
  induction es generalizing st with
  | nil =>
    cases h
    exact hgood
  | cons e es ih =>
    unfold runRemovals at h
    cases hstep : UniformRemoval.remove_element indep rng st e with
    | error er => rw [hstep] at h; cases h
    | ok st1 =>
      rw [hstep] at h
      exact ih (remove_good hdc rng hgood hstep) h

theorem rank_empty (indep : Finset α → Bool) : rank indep (∅ : Finset α) = 0 := by
  unfold rank
  apply Nat.le_antisymm _ (Nat.zero_le _)
  apply Finset.sup_le
  intro B hB
  rw [Finset.mem_filter, Finset.mem_powerset] at hB
  rw [Finset.subset_empty.mp hB.1]
  simp

theorem rank_eq_of_maximal {indep : Finset α → Bool} (hM : IsMatroidOn indep)
    {X P : Finset α} (hP : indep P = true) (hPX : P ⊆ X)
    (hmax : ∀ y ∈ X, y ∉ P → ¬ indep (insert y P) = true) :
    P.card = rank indep X := by
  apply Nat.le_antisymm
  · apply Finset.le_sup
    rw [Finset.mem_filter, Finset.mem_powerset]
    exact ⟨hPX, hP⟩
  · apply Finset.sup_le
    intro B hB
    rw [Finset.mem_filter, Finset.mem_powerset] at hB
    exact card_le_of_maximal hM hP hB.2 hB.1 hmax

/-- C3 (amended, proved): on a uniformly weighted mutable matroid, after any
sequence of successful `remove_element` operations, the generator's yielded
solution is an independent set whose size equals the rank of the current
matroid, and — while the generator is live — each `witness_sets[i]` is
exactly the set of current elements *other than the pivots chosen at steps
`≤ i`* whose addition after pivots `0..i-1` keeps the set independent. -/
theorem C3_uniform_removal_state_correct {indep : Finset α → Bool}
    (hM : IsMatroidOn indep) (rng : ℕ → ℕ) {ground : Finset α} {order : List α}
    (hnd : order.Nodup) (hot : order.toFinset = ground) {es : List α} {st : URState α}
    (h : runRemovals indep rng (UniformRemoval.init indep rng ground order) es = .ok st) :
    indep (UniformRemoval.current st) = true ∧
    (UniformRemoval.current st).card = rank indep st.ground ∧
    (st.finished = false → ∀ i < st.witness.length,
      (st.witness.getD i []).toFinset = st.ground.filter
        (fun x => x ∉ (st.pivots.take (i + 1)).toFinset ∧
          indep (insert x (st.pivots.take i).toFinset) = true)) := by
  have hgood := runRemovals_good hM.subset_indep rng
    (init_good hM.subset_indep hM.empty_indep rng hnd hot) h
  by_cases hfin : st.finished = true
  · have hge := hgood.1 hfin
    unfold UniformRemoval.current
    rw [hfin, if_pos rfl, hge]
    refine ⟨hM.empty_indep, ?_, ?_⟩
    · rw [rank_empty, Finset.card_empty]
    · intro hc
      cases hc
  · have hfin' : st.finished = false := by
      cases hb : st.finished
      · rfl
      · exact absurd hb hfin
    obtain hinv := hgood.2 hfin'
    unfold UniformRemoval.current
    rw [hfin', if_neg (by simp)]
    have hmax : ∀ y ∈ st.ground, y ∉ st.pivots.toFinset →
        ¬ indep (insert y st.pivots.toFinset) = true := by
      intro y hy hyp hcon
      have hylen : st.pivots.length < st.witness.length := by
        rw [hinv.hlen]
        omega
      have hwit := (hinv.hws st.pivots.length hylen).2
      rw [hinv.hlast] at hwit
      have : y ∈ witFml indep st.ground st.pivots st.pivots.length := by
        unfold witFml
        rw [List.take_of_length_le (by omega), List.take_length, Finset.mem_filter]
        exact ⟨hy, hyp, hcon⟩
      rw [← hwit] at this
      simp at this
    refine ⟨hinv.hindep, rank_eq_of_maximal hM hinv.hindep hinv.hsub hmax, ?_⟩
    intro _ i hi
    exact (hinv.hws i hi).2

/-- C1 (code bug): after the mutation sequence `remove_element(2);
remove_element(5)` on the `NaiveDynamic` solver for the explicit partition
matroid above, both removals succeed but the solver's `current` is
`{0, 1, 4}`, which is *not* independent in the matroid, and its total weight
(13) differs from that of a maximum-weight independent set computed from
scratch on the current matroid (the static greedy returns `{0, 1, 3}` of
weight 14).  The root cause is `remove_element`'s shortcut branch, which
drops the element from the element list but not from the indicator list,
corrupting the positional pairing that `_reconstruct_greedy` relies on. -/
theorem C1_naiveDynamic_not_correct :
    (NaiveDynamic.remove_element exIndep exInit 2).isOk = true ∧
    (NaiveDynamic.remove_element exIndep exMid 5).isOk = true ∧
    exIndep exFinal.current = false ∧
    exFinal.matroid.total_weight exFinal.current ≠
      exFinal.matroid.total_weight
        (maximal_independent_set exIndep exFinal.matroid.get_weight [0, 1, 3, 4]) := by
  refine ⟨by decide, by decide, by decide, ?_⟩
  have h1 : exFinal.current = {0, 1, 4} := by decide
  have h2 : maximal_independent_set exIndep exFinal.matroid.get_weight [0, 1, 3, 4] =
      ({3, 1, 0} : Finset ℕ) := by decide
  have h3 : exFinal.matroid =
      ⟨{0, 1, 3, 4}, [(0, 6), (1, 5), (2, 4), (3, 3), (4, 2), (5, 1)]⟩ := by decide
  rw [h1, h2, h3]
  simp +decide [MMatroid.total_weight, MMatroid.get_weight, Finset.sum_insert, List.lookup]
  norm_num

/-- C4 (code bug): `NaiveDynamic.remove_element(e)` with `e` not in the
current solution (here `e = 2`, solution `{0, 1, 3, 5}`) discards `e` from
the ordered element list only; the parallel indicator list keeps its old
length, so the two lists no longer have equal length and the positional
alignment claimed by the invariant is broken (5 elements vs 6 indicators). -/
theorem C4_indicator_misalignment :
    exMid.current = exInit.current ∧
    exMid.elements.length = 5 ∧
    exMid.indicators.length = 6 := by
  decide

/-- C5 (code bug): the concrete mutable matroids' `add_element` overrides
take no weight argument at all (uniform.py line 60, graphical.py line 80), so
an explicitly requested weight is never stored: after adding the fresh
element, `get_weight` returns the default `1.0`, never the requested value
(and in Python the two-argument call made by the solvers raises `TypeError`
outright). -/
theorem C5_add_element_ignores_weight :
    ((MutableIntUniformMatroid.mk' 0 3 []).add_element 1).get_weight 1 = 1 ∧
    ((MutableIntUniformMatroid.mk' 0 3 []).add_element 1).ground_set = {1} ∧
    (GraphState.add_element ⟨[]⟩ (0, 1)).get_weight (0, 1) = some 1 ∧
    (GraphState.add_element ⟨[]⟩ (0, 1)).hasEdge (0, 1) = true := by
  decide

/-- The free `MutableIntUniformMatroid` of size 2 (rank 2, uniform unit
weights), used with the uniform-weight removal algorithm. -/
def urM : MutableIntUniformMatroid := .mk' 2 2 []

/-- Its independence oracle: `len(S) <= 2`. -/
def urIndep : Finset ℤ → Bool := urM.is_independent

/-- A global-RNG stream that always draws 0. -/
def rngA : ℕ → ℕ := fun _ => 0

/-- A global-RNG stream that always draws 1. -/
def rngB : ℕ → ℕ := fun _ => 1

/-- The uniform-removal solver initialised under stream `rngA`. -/
def urA : URState ℤ := UniformRemoval.init urIndep rngA urM.ground_set [0, 1]

/-- The uniform-removal solver initialised under stream `rngB`. -/
def urB : URState ℤ := UniformRemoval.init urIndep rngB urM.ground_set [0, 1]

/-- C6 (code bug): `dynamic_removal_maximal_independent_set_uniform_weights`
takes only the matroid — there is no seed or RNG parameter — and draws
pivots via `random.choice` (partial.py line 82), i.e. from the process-global
Mersenne Twister, modelled here by the draw stream threaded through the
embedding.  Two runs on the same matroid and input that differ only in that
global state produce different pivot sequences: with stream `rngA` the
pivots are `[0, 1]`, with `rngB` they are `[1, 0]`. -/
theorem C6_pivots_read_global_rng :
    urA.pivots = [0, 1] ∧ urB.pivots = [1, 0] ∧ urA.pivots ≠ urB.pivots := by
  have hA : urA = ⟨urM.ground_set, [0, 1], [[1], [], []], 2, false⟩ := by
    simp [urA, UniformRemoval.init, UniformRemoval.pivotLoop, rasDiscard, urIndep, urM,
      MutableIntUniformMatroid.mk', MutableIntUniformMatroid.ground_set,
      MutableIntUniformMatroid.is_independent, rngA]
  have hB : urB = ⟨urM.ground_set, [1, 0], [[0], [], []], 2, false⟩ := by
    simp [urB, UniformRemoval.init, UniformRemoval.pivotLoop, rasDiscard, urIndep, urM,
      MutableIntUniformMatroid.mk', MutableIntUniformMatroid.ground_set,
      MutableIntUniformMatroid.is_independent, rngB]
  rw [hA, hB]
  refine ⟨rfl, rfl, by decide⟩

/-- C3 (counterexample): already after the constructor (the empty removal
sequence) on the free rank-2 uniform matroid over `{0, 1}`, the stored
`witness_sets[0]` is `{1}` — the chosen pivot `pivots[0] = 0` has been
discarded from it by the pivot loop — whereas the set described by the
claim (all current elements whose addition after zero pivots keeps
independence) is `{0, 1}`. -/
theorem C3_witness_set_excludes_pivot :
    urA.pivots = [0, 1] ∧
    (urA.witness.getD 0 []).toFinset = ({1} : Finset ℤ) ∧
    claimWitnessSet urIndep urA 0 = ({0, 1} : Finset ℤ) ∧
    (urA.witness.getD 0 []).toFinset ≠ claimWitnessSet urIndep urA 0 := by
  have hA : urA = ⟨urM.ground_set, [0, 1], [[1], [], []], 2, false⟩ := by
    simp [urA, UniformRemoval.init, UniformRemoval.pivotLoop, rasDiscard, urIndep, urM,
      MutableIntUniformMatroid.mk', MutableIntUniformMatroid.ground_set,
      MutableIntUniformMatroid.is_independent, rngA]
  rw [hA]
  refine ⟨rfl, by decide, by decide, by decide⟩

/-- The oracle of the free rank-2 uniform matroid satisfies the axioms. -/
theorem urIndep_isMatroid : IsMatroidOn urIndep :=
  isMatroidOn_card_le (α := ℤ) 2

/-- Closed instance of C3 (amended): the empty removal sequence on the free
uniform matroid of size 2 under stream `rngA`. -/
theorem C3_uniform_removal_state_correct_witness :
    IsMatroidOn urIndep ∧ ([0, 1] : List ℤ).Nodup ∧
    ([0, 1] : List ℤ).toFinset = MutableIntUniformMatroid.ground_set urM ∧
    (urIndep (UniformRemoval.current urA) = true ∧
      (UniformRemoval.current urA).card = rank urIndep urA.ground ∧
      (urA.finished = false → ∀ i < urA.witness.length,
        (urA.witness.getD i []).toFinset = witFml (α := ℤ) urIndep urA.ground urA.pivots i)) :=
  ⟨urIndep_isMatroid, by decide, by decide,
    @C3_uniform_removal_state_correct ℤ _ urIndep urIndep_isMatroid rngA
      (MutableIntUniformMatroid.ground_set urM) [0, 1]
      (by decide) (by decide) [] urA rfl⟩

/-- C8 (confirmed): removing an element that is not in the ground set fails
with an error on `MutableIntUniformMatroid` and `GraphicalMatroid`, and
through every solver (`NaiveDynamic`, `RestartGreedy`, and the
uniform-weight removal generator, provided the latter is still live).  In
each implementation the failing removal is the first statement executed, so
no state (ground set, weights, element/indicator lists, current solution,
pivots, witness sets) has been touched when the error propagates: the error
outcome carries no successor state. -/
theorem C8_remove_absent_element_fails {α : Type} [DecidableEq α]
    (mU : MutableIntUniformMatroid) (eU : ℤ) (hU : eU ∉ mU.elements)
    (g : GraphState) (eg : ℕ × ℕ) (hg : g.hasEdge eg = false)
    (indep : Finset α → Bool) (st : NDState α) (e : α) (he : e ∉ st.matroid.ground)
    (ordOf : MMatroid α → List α) (rg : RGState α) (erg : α)
    (hrg : erg ∉ rg.matroid.ground)
    (rng : ℕ → ℕ) (ur : URState α) (eur : α) (hfin : ur.finished = false)
    (hur : eur ∉ ur.ground) :
    mU.remove_element eU = .error .keyError ∧
    g.remove_element eg = .error .keyError ∧
    NaiveDynamic.remove_element indep st e = .error .keyError ∧
    RestartGreedy.remove_element indep ordOf rg erg = .error .keyError ∧
    UniformRemoval.remove_element indep rng ur eur = .error .keyError := by
  refine ⟨?_, ?_, ?_, ?_, ?_⟩
  · simp [MutableIntUniformMatroid.remove_element, hU]
  · simp [GraphState.remove_element, hg]
  · simp [NaiveDynamic.remove_element, MMatroid.remove_element, he]
  · simp [RestartGreedy.remove_element, MMatroid.remove_element, hrg]
  · simp [UniformRemoval.remove_element, hfin, hur]

/-- Closed instance of C8: every hypothesis discharged at concrete values. -/
theorem C8_remove_absent_element_fails_witness :
    (MutableIntUniformMatroid.mk' 1 1 []).remove_element 5 = .error .keyError ∧
    GraphState.remove_element ⟨[]⟩ (0, 1) = .error .keyError ∧
    NaiveDynamic.remove_element (fun _ => true) (⟨⟨∅, []⟩, [], [], ∅⟩ : NDState ℕ) 0 =
      .error .keyError ∧
    RestartGreedy.remove_element (fun _ => true) (fun _ => [])
      (⟨⟨∅, []⟩, ∅⟩ : RGState ℕ) 0 = .error .keyError ∧
    UniformRemoval.remove_element (fun _ => true) (fun _ => 0)
      (⟨∅, [], [], 0, false⟩ : URState ℕ) 0 = .error .keyError :=
  C8_remove_absent_element_fails (MutableIntUniformMatroid.mk' 1 1 []) 5 (by decide)
    ⟨[]⟩ (0, 1) (by decide)
    (fun _ => true) ⟨⟨∅, []⟩, [], [], ∅⟩ 0 (by decide)
    (fun _ => []) ⟨⟨∅, []⟩, ∅⟩ 0 (by decide)
    (fun _ => 0) ⟨∅, [], [], 0, false⟩ 0 (by decide) (by decide)

/-! ### NaiveDynamic consistency and the add/remove round trip (C9) -/

/-- The indicator flags the greedy pass computes along a list (the values
`add_if_independent` returns position by position). -/
def greedyFlagsList (indep : Finset α → Bool) : Finset α → List α → List Bool
  | _, [] => []
  | S, x :: xs =>
    let p := add_if_independent indep S x
    p.2 :: greedyFlagsList indep p.1 xs

theorem length_greedyFlagsList (indep : Finset α → Bool) (S : Finset α) (l : List α) :
    (greedyFlagsList indep S l).length = l.length := by
  induction l generalizing S with
  | nil => rfl
  | cons x xs ih => simp [greedyFlagsList, ih]

theorem greedyFlagsList_append (indep : Finset α → Bool) (S : Finset α)
    (a b : List α) :
    greedyFlagsList indep S (a ++ b) =
      greedyFlagsList indep S a ++ greedyFlagsList indep (greedyCore indep S a) b := by
  induction a generalizing S with
  | nil => rfl
  | cons x xs ih => simp [greedyFlagsList, greedyCore, ih]

/-- `_continue_greedy`'s zip over a full indicator list computes exactly the
greedy core and the greedy flags. -/
theorem continue_zip_full (indep : Finset α → Bool) (S : Finset α) :
    ∀ (l : List α) (bs : List Bool), l.length ≤ bs.length →
      NaiveDynamic.continue_zip indep S l bs =
        (greedyCore indep S l, greedyFlagsList indep S l) := by
  intro l
  induction l generalizing S with
  | nil =>
    intro bs _
    cases bs <;> rfl
  | cons x xs ih =>
    intro bs hlen
    cases bs with
    | nil => simp at hlen
    | cons b bs' =>
      simp only [NaiveDynamic.continue_zip, greedyCore, greedyFlagsList]
      rw [ih _ bs' (by simpa using hlen)]

theorem continue_zip_nil_right (indep : Finset α → Bool) (S : Finset α) (l : List α) :
    NaiveDynamic.continue_zip indep S l [] = (S, []) := by
  cases l <;> rfl

/-- `_reconstruct_greedy`'s zip over the greedy flags: the walk replays the
greedy state over the `stop`-free prefix and reports the position where
`stop` first fired (`none` when it never does). -/
theorem reconstruct_zip_spec (indep : Finset α → Bool) (stop : α → Bool) :
    ∀ (l : List α) (S : Finset α) (k0 : ℕ),
      NaiveDynamic.reconstruct_zip stop l (greedyFlagsList indep S l) S k0 =
        (greedyCore indep S (l.takeWhile (fun x => ! stop x)),
          if l.dropWhile (fun x => ! stop x) = [] then none
          else some (k0 + (l.takeWhile (fun x => ! stop x)).length)) := by
  intro l
  induction l with
  | nil => intro S k0; rfl
  | cons x xs ih =>
    intro S k0
    by_cases hstop : stop x = true
    · simp only [NaiveDynamic.reconstruct_zip, greedyFlagsList, hstop, if_true,
        List.takeWhile_cons, List.dropWhile_cons, Bool.not_true]
      simp [greedyCore]
    · have hstop' : stop x = false := by
        cases hb : stop x
        · rfl
        · exact absurd hb hstop
      have hrepl : (if (add_if_independent indep S x).2 = true then insert x S else S) =
          (add_if_independent indep S x).1 := by
        unfold add_if_independent
        by_cases h : would_be_independent_after_adding indep S x = true <;> simp [h]
      simp only [NaiveDynamic.reconstruct_zip, greedyFlagsList, hstop',
        List.takeWhile_cons, List.dropWhile_cons, Bool.not_false, if_true,
        Bool.false_eq_true, if_false]
      rw [hrepl, ih]
      simp [greedyCore, Nat.add_comm, Nat.add_assoc, Nat.add_left_comm]

theorem insertIdx_append_length {β : Type} (a b : List β) (e : β) :
    (a ++ b).insertIdx a.length e = a ++ e :: b := by
  induction a with
  | nil => rfl
  | cons x xs ih => simp only [List.cons_append, List.length_cons,
      List.insertIdx_succ_cons, ih]

theorem eraseIdx_append_length {β : Type} (a b : List β) (e : β) :
    (a ++ e :: b).eraseIdx a.length = a ++ b := by
  induction a with
  | nil => rfl
  | cons x xs ih => simp [List.eraseIdx, ih]

theorem set_append_length (a : List Bool) (x y : Bool) (b : List Bool) :
    (a ++ x :: b).set a.length y = a ++ y :: b := by
  induction a with
  | nil => rfl
  | cons z zs ih => simp [List.set, ih]

theorem takeWhile_append_all (p : α → Bool) (a b : List α)
    (ha : ∀ x ∈ a, p x = true) :
    (a ++ b).takeWhile p = a ++ b.takeWhile p := by
  induction a with
  | nil => simp
  | cons x xs ih =>
    have hx := ha x (by simp)
    simp only [List.cons_append, List.takeWhile_cons, hx, if_true]
    rw [ih (fun y hy => ha y (by simp [hy]))]

theorem dropWhile_append_all (p : α → Bool) (a b : List α)
    (ha : ∀ x ∈ a, p x = true) :
    (a ++ b).dropWhile p = b.dropWhile p := by
  induction a with
  | nil => simp
  | cons x xs ih =>
    have hx := ha x (by simp)
    simp only [List.cons_append, List.dropWhile_cons, hx, if_true]
    exact ih (fun y hy => ha y (by simp [hy]))

theorem get_weight_add_self (m : MMatroid α) (e : α) (w : Option ℚ) :
    (m.add_element e w).get_weight e = w.getD 1 := by
  simp [MMatroid.add_element, MMatroid.get_weight, List.lookup]

theorem mem_ground_add_self (m : MMatroid α) (e : α) (w : Option ℚ) :
    e ∈ (m.add_element e w).ground := by
  simp [MMatroid.add_element]

/-- NaiveDynamic's documented state invariant (spec section 4.6): the element
list holds the non-negative-weight ground elements without repetition in
descending weight order, the indicator list holds exactly the greedy
selection flags over that list, and `current` is the greedy solution. -/
def NDConsistent (indep : Finset α → Bool) (st : NDState α) : Prop :=
  st.elements.Nodup ∧
  st.elements.Sorted (wge st.matroid.get_weight) ∧
  st.elements.toFinset =
    st.matroid.ground.filter (fun x => 0 ≤ st.matroid.get_weight x) ∧
  st.indicators = greedyFlagsList indep ∅ st.elements ∧
  st.current = greedyCore indep ∅ st.elements

/-- `remove_element` when the element is in the matroid but not in the
current solution: only the matroid and the element list change (the
shortcut of full.py lines 166-168). -/
theorem remove_element_shortcut (indep : Finset α → Bool) (st : NDState α) (e : α)
    (hmem : e ∈ st.matroid.ground) (hecur : e ∉ st.current) :
    NaiveDynamic.remove_element indep st e =
      .ok { st with matroid := st.matroid.remove_total e,
                    elements := st.elements.erase e } := by
  simp [NaiveDynamic.remove_element, MMatroid.remove_element, hmem, hecur,
    MMatroid.remove_total]

/-- `_continue_greedy` started past the end of both iterators is the
identity on the state and the indicator list. -/
theorem continue_greedy_none (indep : Finset α → Bool) (S : Finset α)
    (l : List α) (f : List Bool) :
    NaiveDynamic.continue_greedy indep S l f none none = (S, f) := by
  simp [NaiveDynamic.continue_greedy, List.drop_length, continue_zip_nil_right]

/-- `_continue_greedy` started right after an aligned prefix recomputes the
greedy pass over the suffix and splices the recomputed flags in. -/
theorem continue_greedy_some (indep : Finset α → Bool) (S : Finset α)
    (a b : List α) (fa fb : List Bool)
    (hfa : fa.length = a.length) (hfb : fb.length = b.length) :
    NaiveDynamic.continue_greedy indep S (a ++ b) (fa ++ fb)
        (some a.length) (some a.length) =
      (greedyCore indep S b, fa ++ greedyFlagsList indep S b) := by
  have hdropf : (fa ++ fb).drop a.length = fb := List.drop_left' hfa
  have htakef : (fa ++ fb).take a.length = fa := List.take_left' hfa
  have hdrope : (a ++ b).drop a.length = b := List.drop_left a b
  have hcz : NaiveDynamic.continue_zip indep S b fb =
      (greedyCore indep S b, greedyFlagsList indep S b) :=
    continue_zip_full indep S b fb (le_of_eq hfb.symm)
  simp only [NaiveDynamic.continue_greedy, hdropf, hdrope, hcz, htakef]
  rw [List.drop_eq_nil_of_le]
  · simp
  · rw [List.length_append, hfa, hfb, length_greedyFlagsList]

/-- `remove_element` on a state whose indicators are the greedy flags, at an
element of the solution: the walk stops at the element's position, both
lists drop that position, and the continued pass recomputes exactly the
greedy state of the shortened element list. -/
theorem remove_element_char (indep : Finset α → Bool) (st : NDState α) (e : α)
    (tW dW : List α)
    (hsplit : st.elements = tW ++ e :: dW)
    (hetW : ∀ x ∈ tW, x ≠ e)
    (hind : st.indicators = greedyFlagsList indep ∅ st.elements)
    (hmem : e ∈ st.matroid.ground)
    (hecur : e ∈ st.current) :
    NaiveDynamic.remove_element indep st e =
      .ok { matroid := st.matroid.remove_total e,
            elements := tW ++ dW,
            indicators := greedyFlagsList indep ∅ (tW ++ dW),
            current := greedyCore indep ∅ (tW ++ dW) } := by
  have hrm : st.matroid.remove_element e = .ok (st.matroid.remove_total e) := by
    simp [MMatroid.remove_element, hmem, MMatroid.remove_total]
  have hstopall : ∀ x ∈ tW, (fun x => ! decide (x = e)) x = true := by
    intro x hx; simp [hetW x hx]
  have htake : st.elements.takeWhile (fun x => ! decide (x = e)) = tW := by
    rw [hsplit, takeWhile_append_all _ _ _ hstopall]
    simp [List.takeWhile_cons]
  have hdrop : st.elements.dropWhile (fun x => ! decide (x = e)) = e :: dW := by
    rw [hsplit, dropWhile_append_all _ _ _ hstopall]
    simp [List.dropWhile_cons]
  have hrec : NaiveDynamic.reconstruct_zip (fun x => x = e)
      st.elements st.indicators ∅ 0 =
      (greedyCore indep ∅ tW, some tW.length) := by
    rw [hind, reconstruct_zip_spec indep _ st.elements ∅ 0, htake, hdrop]
    simp
  have hlen_el : st.elements.length = tW.length + 1 + dW.length := by
    rw [hsplit]; simp; omega
  have hlen_ind : st.indicators.length = tW.length + 1 + dW.length := by
    rw [hind, length_greedyFlagsList]; exact hlen_el
  have hflag : st.indicators = greedyFlagsList indep ∅ tW ++
      (add_if_independent indep (greedyCore indep ∅ tW) e).2 ::
        greedyFlagsList indep
          (add_if_independent indep (greedyCore indep ∅ tW) e).1 dW := by
    rw [hind, hsplit, greedyFlagsList_append]
    rfl
  have her_el : st.elements.eraseIdx tW.length = tW ++ dW := by
    rw [hsplit]; exact eraseIdx_append_length tW dW e
  have her_ind : st.indicators.eraseIdx tW.length = greedyFlagsList indep ∅ tW ++
      greedyFlagsList indep
        (add_if_independent indep (greedyCore indep ∅ tW) e).1 dW := by
    rw [hflag]
    have h1 : tW.length = (greedyFlagsList indep ∅ tW).length := by
      rw [length_greedyFlagsList]
    rw [h1, eraseIdx_append_length]
  -- unfold the removal
  unfold NaiveDynamic.remove_element
  rw [hrm]
  simp only
  rw [if_neg (by simpa using hecur)]
  simp only [hrec]
  rw [her_el, her_ind]
  rcases dW with _ | ⟨d, dW'⟩
  · -- the removed element was last: both continuation iterators are empty
    have hc1 : ¬ (tW.length + 1 < st.elements.length) := by
      rw [hlen_el]; simp
    have hc2 : ¬ (tW.length + 1 < st.indicators.length) := by
      rw [hlen_ind]; simp
    rw [if_neg hc1, if_neg hc2, continue_greedy_none]
    simp [greedyCore, greedyFlagsList]
  · -- a successor exists: continue from the shifted position
    have hc1 : tW.length + 1 < st.elements.length := by simp [hlen_el]
    have hc2 : tW.length + 1 < st.indicators.length := by simp [hlen_ind]
    rw [if_pos hc1, if_pos hc2,
      continue_greedy_some indep _ tW (d :: dW') (greedyFlagsList indep ∅ tW)
        _ (length_greedyFlagsList _ _ _) (length_greedyFlagsList _ _ _)]
    rw [greedyCore_append, greedyFlagsList_append]

/-- `add_element` for a fresh element whose actual weight is negative: only
the matroid changes. -/
theorem add_fresh_neg (indep : Finset α → Bool) (st : NDState α) (e : α)
    (w : Option ℚ) (hwt : (st.matroid.add_element e w).get_weight e < 0) :
    NaiveDynamic.add_fresh indep st e w =
      { st with matroid := st.matroid.add_element e w } := by
  unfold NaiveDynamic.add_fresh
  rw [if_pos hwt]

/-- `add_element` for a fresh non-negative element the checker rejects: the
element is spliced into both lists (with a `False` indicator) at the first
position of smaller weight, and the solution is untouched. -/
theorem add_fresh_reject (indep : Finset α → Bool) (st : NDState α) (e : α)
    (w : Option ℚ) (tW dW : List α)
    (htW : st.elements.takeWhile
        (fun x => ! decide ((st.matroid.add_element e w).get_weight x <
          (st.matroid.add_element e w).get_weight e)) = tW)
    (hdW : st.elements.dropWhile
        (fun x => ! decide ((st.matroid.add_element e w).get_weight x <
          (st.matroid.add_element e w).get_weight e)) = dW)
    (hind : st.indicators = greedyFlagsList indep ∅ st.elements)
    (hwt : ¬ (st.matroid.add_element e w).get_weight e < 0)
    (hrej : indep (insert e (greedyCore indep ∅ tW)) = false) :
    NaiveDynamic.add_fresh indep st e w =
      { matroid := st.matroid.add_element e w,
        elements := tW ++ e :: dW,
        indicators := greedyFlagsList indep ∅ tW ++ false ::
          greedyFlagsList indep (greedyCore indep ∅ tW) dW,
        current := st.current } := by
  have hsplit : st.elements = tW ++ dW := by
    rw [← htW, ← hdW, List.takeWhile_append_dropWhile]
  have hindl : st.indicators = greedyFlagsList indep ∅ tW ++
      greedyFlagsList indep (greedyCore indep ∅ tW) dW := by
    rw [hind, hsplit, greedyFlagsList_append]
  have hrec : NaiveDynamic.reconstruct_zip
      (fun x => (st.matroid.add_element e w).get_weight x <
        (st.matroid.add_element e w).get_weight e)
      st.elements st.indicators ∅ 0 =
      (greedyCore indep ∅ tW, if dW = [] then none else some tW.length) := by
    rw [hind, reconstruct_zip_spec indep _ st.elements ∅ 0, htW, hdW]
    simp
  rcases dW with _ | ⟨d, dW'⟩
  · rw [if_pos rfl] at hrec
    have hel : st.elements = tW := by simpa using hsplit
    have hil : st.indicators = greedyFlagsList indep ∅ tW := by
      simpa [greedyFlagsList] using hindl
    unfold NaiveDynamic.add_fresh
    rw [if_neg hwt]
    simp only [hrec, Option.getD_none]
    rw [if_pos (by simp [hrej])]
    rw [hel, hil, List.insertIdx_length_self, List.insertIdx_length_self]
    simp [greedyFlagsList]
  · rw [if_neg (List.cons_ne_nil d dW')] at hrec
    unfold NaiveDynamic.add_fresh
    rw [if_neg hwt]
    simp only [hrec, Option.getD_some]
    rw [if_pos (by simp [hrej])]
    rw [hsplit, insertIdx_append_length, hindl]
    have h1 : tW.length = (greedyFlagsList indep ∅ tW).length :=
      (length_greedyFlagsList indep ∅ tW).symm
    rw [h1, insertIdx_append_length]

theorem insertIdx_append_length' {β : Type} (a b : List β) (e : β) {n : ℕ}
    (h : a.length = n) : (a ++ b).insertIdx n e = a ++ e :: b := by
  rw [← h]; exact insertIdx_append_length a b e

theorem set_append_length' (a : List Bool) (x y : Bool) (b : List Bool) {n : ℕ}
    (h : a.length = n) : (a ++ x :: b).set n y = a ++ y :: b := by
  rw [← h]; exact set_append_length a x y b

/-- `add_element` for a fresh non-negative element the checker accepts: the
element is spliced in with a `True` indicator and the greedy pass continues
over the suffix, leaving exactly the greedy state of the new element list. -/
theorem add_fresh_accept (indep : Finset α → Bool) (st : NDState α) (e : α)
    (w : Option ℚ) (tW dW : List α)
    (htW : st.elements.takeWhile
        (fun x => ! decide ((st.matroid.add_element e w).get_weight x <
          (st.matroid.add_element e w).get_weight e)) = tW)
    (hdW : st.elements.dropWhile
        (fun x => ! decide ((st.matroid.add_element e w).get_weight x <
          (st.matroid.add_element e w).get_weight e)) = dW)
    (hind : st.indicators = greedyFlagsList indep ∅ st.elements)
    (hwt : ¬ (st.matroid.add_element e w).get_weight e < 0)
    (hacc : indep (insert e (greedyCore indep ∅ tW)) = true) :
    NaiveDynamic.add_fresh indep st e w =
      { matroid := st.matroid.add_element e w,
        elements := tW ++ e :: dW,
        indicators := greedyFlagsList indep ∅ (tW ++ e :: dW),
        current := greedyCore indep (insert e (greedyCore indep ∅ tW)) dW } := by
  have hsplit : st.elements = tW ++ dW := by
    rw [← htW, ← hdW, List.takeWhile_append_dropWhile]
  have hindl : st.indicators = greedyFlagsList indep ∅ tW ++
      greedyFlagsList indep (greedyCore indep ∅ tW) dW := by
    rw [hind, hsplit, greedyFlagsList_append]
  have hrec : NaiveDynamic.reconstruct_zip
      (fun x => (st.matroid.add_element e w).get_weight x <
        (st.matroid.add_element e w).get_weight e)
      st.elements st.indicators ∅ 0 =
      (greedyCore indep ∅ tW, if dW = [] then none else some tW.length) := by
    rw [hind, reconstruct_zip_spec indep _ st.elements ∅ 0, htW, hdW]
    simp
  have hadd : add_if_independent indep (greedyCore indep ∅ tW) e =
      (insert e (greedyCore indep ∅ tW), true) := by
    simp [add_if_independent, would_be_independent_after_adding, hacc]
  rcases dW with _ | ⟨d, dW'⟩
  · rw [if_pos rfl] at hrec
    have hel : st.elements = tW := by simpa using hsplit
    have hil : st.indicators = greedyFlagsList indep ∅ tW := by
      simpa [greedyFlagsList] using hindl
    unfold NaiveDynamic.add_fresh
    rw [if_neg hwt]
    simp only [hrec, Option.getD_none]
    rw [if_neg (by simp [hacc])]
    rw [hel, hil, List.insertIdx_length_self, List.insertIdx_length_self,
      set_append_length]
    rw [if_neg (show ¬ (tW.length + 1 < (tW ++ [e]).length) by simp)]
    rw [if_neg (show ¬ ((greedyFlagsList indep ∅ tW).length + 1 <
      (greedyFlagsList indep ∅ tW ++ true :: []).length) by simp)]
    rw [continue_greedy_none]
    simp [greedyFlagsList_append, greedyFlagsList, greedyCore, hadd]
  · rw [if_neg (List.cons_ne_nil d dW')] at hrec
    unfold NaiveDynamic.add_fresh
    rw [if_neg hwt]
    simp only [hrec, Option.getD_some]
    rw [if_neg (by simp [hacc])]
    rw [hsplit, insertIdx_append_length, hindl,
      insertIdx_append_length' _ _ _ (length_greedyFlagsList indep ∅ tW),
      set_append_length' _ _ _ _ (length_greedyFlagsList indep ∅ tW)]
    rw [if_pos (show tW.length + 1 < (tW ++ e :: d :: dW').length by
      simp only [List.length_append, List.length_cons]; omega)]
    rw [if_pos (show tW.length + 1 < (greedyFlagsList indep ∅ tW ++ true ::
        greedyFlagsList indep (greedyCore indep ∅ tW) (d :: dW')).length by
      simp only [List.length_append, List.length_cons, length_greedyFlagsList]
      omega)]
    have he1 : tW ++ e :: d :: dW' = (tW ++ [e]) ++ d :: dW' := by simp
    have he2 : greedyFlagsList indep ∅ tW ++ true ::
        greedyFlagsList indep (greedyCore indep ∅ tW) (d :: dW') =
        (greedyFlagsList indep ∅ tW ++ [true]) ++
          greedyFlagsList indep (greedyCore indep ∅ tW) (d :: dW') := by simp
    have he3 : some (tW.length + 1) = some ((tW ++ [e]).length) := by simp
    rw [he1, he2, he3,
      continue_greedy_some indep _ (tW ++ [e]) (d :: dW')
        (greedyFlagsList indep ∅ tW ++ [true])
        (greedyFlagsList indep (greedyCore indep ∅ tW) (d :: dW'))
        (by simp [length_greedyFlagsList]) (length_greedyFlagsList _ _ _)]
    simp [greedyFlagsList_append, greedyFlagsList, greedyCore, hadd]

/-- C9: for a NaiveDynamic solver in a consistent state and an element `e`
not currently in the matroid, `add_element(e, w)` immediately followed by
`remove_element(e)` yields a MWIS equal, as a set of elements, to the MWIS
held before the pair of operations. -/
theorem C9_add_remove_round_trip (indep : Finset α → Bool) (st : NDState α)
    (e : α) (w : Option ℚ)
    (hcons : NDConsistent indep st) (he : e ∉ st.matroid.ground) :
    ∃ st1 st2, NaiveDynamic.add_element indep st e w = .ok st1 ∧
      NaiveDynamic.remove_element indep st1 e = .ok st2 ∧
      st2.current = st.current := by
  obtain ⟨hnd, hsort, hgnd, hind, hcur⟩ := hcons
  have hel : e ∉ st.elements := by
    intro hmem
    have h1 : e ∈ st.elements.toFinset := List.mem_toFinset.mpr hmem
    rw [hgnd] at h1
    exact he (Finset.mem_filter.mp h1).1
  have hecur : e ∉ st.current := by
    intro hc
    rw [hcur] at hc
    have h1 := greedyCore_subset indep ∅ st.elements hc
    rw [Finset.empty_union] at h1
    exact hel (List.mem_toFinset.mp h1)
  have hadd0 : NaiveDynamic.add_element indep st e w =
      .ok (NaiveDynamic.add_fresh indep st e w) := by
    simp [NaiveDynamic.add_element, he]
  by_cases hneg : (st.matroid.add_element e w).get_weight e < 0
  · -- negative actual weight: the lists are untouched, removal short-cuts
    have h1 := add_fresh_neg indep st e w hneg
    have hrem : NaiveDynamic.remove_element indep
        (NaiveDynamic.add_fresh indep st e w) e =
        .ok { matroid := (st.matroid.add_element e w).remove_total e,
              elements := st.elements.erase e,
              indicators := st.indicators, current := st.current } := by
      rw [h1]
      exact remove_element_shortcut indep _ e (mem_ground_add_self _ _ _) hecur
    exact ⟨_, _, hadd0, hrem, rfl⟩
  · obtain ⟨tW, htW⟩ : ∃ tW, st.elements.takeWhile
        (fun x => ! decide ((st.matroid.add_element e w).get_weight x <
          (st.matroid.add_element e w).get_weight e)) = tW := ⟨_, rfl⟩
    obtain ⟨dW, hdW⟩ : ∃ dW, st.elements.dropWhile
        (fun x => ! decide ((st.matroid.add_element e w).get_weight x <
          (st.matroid.add_element e w).get_weight e)) = dW := ⟨_, rfl⟩
    have hta : tW ++ dW = st.elements := by
      rw [← htW, ← hdW, List.takeWhile_append_dropWhile]
    have hetW : ∀ x ∈ tW, x ≠ e := by
      intro x hx hxe
      subst hxe
      rw [← htW] at hx
      exact hel ((List.takeWhile_sublist _).subset hx)
    cases hia : indep (insert e (greedyCore indep ∅ tW)) with
    | false =>
      -- the checker rejects the new element: the solution never changes
      have h1 := add_fresh_reject indep st e w tW dW htW hdW hind hneg hia
      have hrem : NaiveDynamic.remove_element indep
          (NaiveDynamic.add_fresh indep st e w) e =
          .ok { matroid := (st.matroid.add_element e w).remove_total e,
                elements := (tW ++ e :: dW).erase e,
                indicators := greedyFlagsList indep ∅ tW ++ false ::
                  greedyFlagsList indep (greedyCore indep ∅ tW) dW,
                current := st.current } := by
        rw [h1]
        exact remove_element_shortcut indep _ e (mem_ground_add_self _ _ _) hecur
      exact ⟨_, _, hadd0, hrem, rfl⟩
    | true =>
      -- the checker accepts it: removal replays and recomputes the old state
      have h1 := add_fresh_accept indep st e w tW dW htW hdW hind hneg hia
      have h2 := remove_element_char indep
        { matroid := st.matroid.add_element e w,
          elements := tW ++ e :: dW,
          indicators := greedyFlagsList indep ∅ (tW ++ e :: dW),
          current := greedyCore indep (insert e (greedyCore indep ∅ tW)) dW }
        e tW dW rfl hetW rfl (mem_ground_add_self _ _ _)
        (subset_greedyCore indep _ dW (Finset.mem_insert_self e _))
      have hrem : NaiveDynamic.remove_element indep
          (NaiveDynamic.add_fresh indep st e w) e =
          .ok { matroid := (st.matroid.add_element e w).remove_total e,
                elements := tW ++ dW,
                indicators := greedyFlagsList indep ∅ (tW ++ dW),
                current := greedyCore indep ∅ (tW ++ dW) } := by
        rw [h1]
        exact h2
      refine ⟨_, _, hadd0, hrem, ?_⟩
      show greedyCore indep ∅ (tW ++ dW) = st.current
      rw [hta]
      exact hcur.symm

/-- Witness for C9 at a concrete consistent state: the solver over the empty
integer matroid, adding element `0` with weight `2` and removing it again. -/
theorem C9_add_remove_round_trip_witness :
    NDConsistent (fun S : Finset ℤ => S.card ≤ 1)
        ⟨⟨∅, []⟩, [], [], ∅⟩ ∧
      (0 : ℤ) ∉ (MMatroid.mk (∅ : Finset ℤ) []).ground ∧
      ∃ st1 st2,
        NaiveDynamic.add_element (fun S : Finset ℤ => S.card ≤ 1)
            ⟨⟨∅, []⟩, [], [], ∅⟩ 0 (some 2) = .ok st1 ∧
          NaiveDynamic.remove_element (fun S : Finset ℤ => S.card ≤ 1) st1 0 =
            .ok st2 ∧
          st2.current = (⟨⟨∅, []⟩, [], [], ∅⟩ : NDState ℤ).current :=
  ⟨⟨List.nodup_nil, List.sorted_nil, by simp, rfl, rfl⟩,
    Finset.not_mem_empty 0,
    C9_add_remove_round_trip (fun S : Finset ℤ => S.card ≤ 1)
      ⟨⟨∅, []⟩, [], [], ∅⟩ 0 (some 2)
      ⟨List.nodup_nil, List.sorted_nil, by simp, rfl, rfl⟩
      (Finset.not_mem_empty 0)⟩

/-! ### C7: graphical stateful checker vs. the default bulk test

The `networkx` graph of a `GraphicalMatroid` is modelled as a simple graph;
an edge subset `S` induces the subgraph `fromEdgeSet S`.  The union-find in
`GraphicalMatroid.StatefulIndependenceChecker` is initialised from the
connected components of the subgraph `(V, S)` and queried through `find`;
its observable content is exactly the connected-components partition, so
`find(u) == find(v)` is modelled by reachability in `(V, S)`. -/

/-- `GraphicalMatroid.is_independent(S)` (graphical.py lines 33-37): the edge
subgraph of `S` is a forest (no cycles; `True` for the empty subgraph). -/
def graphical_is_independent {V : Type} (S : Set (Sym2 V)) : Prop :=
  (SimpleGraph.fromEdgeSet S).IsAcyclic

/-- Denotation of `find(u) == find(v)` on the checker's union-find: `u` and
`v` lie in the same connected component of `(V, S)`. -/
def sameComponent {V : Type} (S : Set (Sym2 V)) (u v : V) : Prop :=
  (SimpleGraph.fromEdgeSet S).Reachable u v

/-- `GraphicalMatroid.StatefulIndependenceChecker.would_be_independent_after_adding`
(graphical.py lines 58-67): `not same_components or element in self.independent_subset`. -/
def graphical_would_be_independent_after_adding {V : Type} (S : Set (Sym2 V))
    (u v : V) : Prop :=
  ¬ sameComponent S u v ∨ s(u, v) ∈ S

/-- C7 (confirmed): for a forest `S` and an edge `{u, v}` of the simple graph
not in `S`, the union-find checker answers "`u` and `v` lie in different
components of `(V, S)`", and that coincides with the default checker's bulk
test `is_independent(S ∪ {{u, v}})` — the subgraph stays a forest. -/
theorem C7_graphical_checker_equiv {V : Type} (S : Set (Sym2 V)) (u v : V)
    (hforest : graphical_is_independent S) (hne : u ≠ v)
    (hnotin : s(u, v) ∉ S) :
    (graphical_would_be_independent_after_adding S u v ↔ ¬ sameComponent S u v) ∧
    (graphical_would_be_independent_after_adding S u v ↔
      graphical_is_independent (S ∪ {s(u, v)})) := by
  have hfirst : graphical_would_be_independent_after_adding S u v ↔
      ¬ sameComponent S u v := by
    unfold graphical_would_be_independent_after_adding
    constructor
    · rintro (h | h)
      · exact h
      · exact absurd h hnotin
    · exact Or.inl
  refine ⟨hfirst, hfirst.trans ?_⟩
  unfold sameComponent graphical_is_independent
  have hdel : SimpleGraph.fromEdgeSet (S ∪ {s(u, v)}) \
      SimpleGraph.fromEdgeSet {s(u, v)} = SimpleGraph.fromEdgeSet S := by
    ext a b
    simp only [SimpleGraph.sdiff_adj, SimpleGraph.fromEdgeSet_adj, Set.mem_union,
      Set.mem_singleton_iff]
    constructor
    · rintro ⟨⟨hmem | hmem, hab⟩, hno⟩
      · exact ⟨hmem, hab⟩
      · exact absurd ⟨hmem, hab⟩ hno
    · rintro ⟨hmem, hab⟩
      refine ⟨⟨Or.inl hmem, hab⟩, ?_⟩
      rintro ⟨heq, -⟩
      rw [heq] at hmem
      exact hnotin hmem
  have hadj : (SimpleGraph.fromEdgeSet (S ∪ {s(u, v)})).Adj u v := by
    rw [SimpleGraph.fromEdgeSet_adj]
    exact ⟨Or.inr rfl, hne⟩
  constructor
  · intro hnr
    intro w c hc
    by_cases he : s(u, v) ∈ c.edges
    · have := (SimpleGraph.adj_and_reachable_delete_edges_iff_exists_cycle
        (G := SimpleGraph.fromEdgeSet (S ∪ {s(u, v)})) (v := u) (w := v)).mpr
        ⟨w, c, hc, he⟩
      rw [hdel] at this
      exact hnr this.2
    · have hedges : ∀ ed ∈ c.edges, ed ∈ (SimpleGraph.fromEdgeSet S).edgeSet := by
        intro ed hed
        have hmem := c.edges_subset_edgeSet hed
        rw [SimpleGraph.edgeSet_fromEdgeSet] at hmem ⊢
        rcases hmem with ⟨hmem | hmem, hdiag⟩
        · exact ⟨hmem, hdiag⟩
        · rw [Set.mem_singleton_iff] at hmem
          rw [hmem] at hed
          exact absurd hed he
      exact hforest (c.transfer _ hedges) (hc.transfer hedges)
  · intro hacy hr
    obtain ⟨w, c, hc, he⟩ :=
      (SimpleGraph.adj_and_reachable_delete_edges_iff_exists_cycle).mp
        ⟨hadj, by rw [hdel]; exact hr⟩
    exact hacy c hc

/-- Closed instance of C7: the empty forest in the graph on `ℕ` with edge
`{0, 1}`. -/
theorem C7_graphical_checker_equiv_witness :
    graphical_is_independent (∅ : Set (Sym2 ℕ)) ∧ (0 : ℕ) ≠ 1 ∧
    s((0 : ℕ), 1) ∉ (∅ : Set (Sym2 ℕ)) ∧
    ((graphical_would_be_independent_after_adding ∅ 0 1 ↔
        ¬ sameComponent (∅ : Set (Sym2 ℕ)) 0 1) ∧
      (graphical_would_be_independent_after_adding ∅ 0 1 ↔
        graphical_is_independent ((∅ : Set (Sym2 ℕ)) ∪ {s(0, 1)}))) := by
  have hforest : graphical_is_independent (∅ : Set (Sym2 ℕ)) := by
    unfold graphical_is_independent
    rw [SimpleGraph.fromEdgeSet_empty]
    exact SimpleGraph.isAcyclic_bot
  exact ⟨hforest, by decide, Set.not_mem_empty _,
    C7_graphical_checker_equiv ∅ 0 1 hforest (by decide) (Set.not_mem_empty _)⟩

/-- C10 (confirmed): `GraphicalMatroid.get_weight` returns the stored
`"weight"` attribute when it is a Python float, returns `1.0` when the edge
has no `"weight"` attribute, and fails the `isinstance(weight, float)`
assertion (modelled by `none`) whenever the stored attribute is not a float,
e.g. an `int`. -/
theorem C10_graphical_get_weight_spec :
    (∀ x : ℚ, graphicalGetWeight (some (PyNum.pyFloat x)) = some x) ∧
    graphicalGetWeight none = some 1 ∧
    (∀ n : ℤ, graphicalGetWeight (some (PyNum.pyInt n)) = none) := by
  exact ⟨fun x => rfl, rfl, fun n => rfl⟩

end Matroids
